import Mathlib

/-!
Verification of the Auto-Timestamp frontmatter editor (src/main.ts).

Strings are modelled as `List Char` (`Str`).  The JavaScript operations used
by the source are embedded faithfully:

* the frontmatter regex `^---\n([\s\S]*?)\n---` (lines 143 and 173): `^`
  without the `m` flag
  anchors at the start of the string, and the lazy inner group makes the
  match end at the earliest later occurrence of `"\n---"`.  `fmMatch`
  returns the captured inner text and the text following the match.
* `new RegExp("^" + key + ":", "m").test(fm)` (lines 151, 156, 182, 196):
  for a key containing no regex metacharacters (`plainKey`), applied to
  text whose only line terminator is the newline (`nlOnly`), this holds
  exactly when some line of `fm` starts with `key ++ ":"`; embedded as
  `keyPresent`, and the theorems whose conclusions depend on the key tests
  carry these side conditions.
* `String.prototype.replace` with a string replacement processes the
  replacement for `$$`, `$&`, dollar-backquote, dollar-quote and `$n`
  escapes (ECMA GetSubstitution); embedded as `getSub`.  This matters: the
  code interpolates user frontmatter text into replacement strings.
* `fm.replace(/^(key:).*$/m, repl)` (line 186): on the same `plainKey` and
  `nlOnly` domain, replaces the first line starting with `key:` (the group
  captures `key:`); embedded as `jsRegexLineReplace`.
* `format.replace("tok", component)` (lines 80-86): first occurrence of the
  literal token; embedded as `jsStringReplaceFirst`.
* `new RegExp(pattern).test(path)` (lines 94-95): unanchored search.  The
  pattern compiler `compileRe` covers literal characters, `.` and postfix
  `*` (the fragment the spec exercises); matching is by Brzozowski
  derivatives.
-/

namespace AutoTimestamp

abbrev Str := List Char

/-- Character list of a string literal. -/
def S (s : String) : Str := s.data

/-- Index of the first occurrence of `pat` in `s`, if any. -/
def firstOcc (pat : Str) : Str → Option Nat
  | [] => if pat.isPrefixOf ([] : Str) then some 0 else none
  | c :: t => if pat.isPrefixOf (c :: t) then some 0 else (firstOcc pat t).map (· + 1)

/-- Split on newline characters; the denotation of line structure used by
the `m`-flag regexes in the source. -/
def splitNl : Str → List Str
  | [] => [[]]
  | c :: t =>
    if c = '\n' then [] :: splitNl t
    else (c :: (splitNl t).headD []) :: (splitNl t).tail

/-- Rejoin lines with newline separators. -/
def joinNl : List Str → Str
  | [] => []
  | [l] => l
  | l :: l2 :: ls => l ++ '\n' :: joinNl (l2 :: ls)

/-- Index of the first element satisfying `p`. -/
def findIdxO (p : Str → Bool) : List Str → Option Nat
  | [] => none
  | l :: t => if p l then some 0 else (findIdxO p t).map (· + 1)

/-- Replace the element at an index. -/
def setIdx : List Str → Nat → Str → List Str
  | [], _, _ => []
  | _ :: t, 0, x => x :: t
  | l :: t, n + 1, x => l :: setIdx t n x

def oneDig (c : Char) : Nat := c.toNat - 48

def twoDig (c1 c2 : Char) : Nat := 10 * (c1.toNat - 48) + (c2.toNat - 48)

/-- ECMA GetSubstitution: expand `$` escapes in a string replacement.
Arguments: matched text `m`, text before the match `b`, text after the
match `a`, captured groups `g`, then fuel and the replacement template.
The fuel only drives structural recursion; every step consumes at least
one character, so any fuel at least the template length gives the same
result (`getSubAux_irrel`). -/
def getSubAux (m b a : Str) (g : List Str) : Nat → Str → Str
  | _, [] => []
  | 0, s => s
  | f + 1, c :: t =>
    if c = '$' then
      match t with
      | [] => ['$']
      | c1 :: t2 =>
        if c1 = '$' then '$' :: getSubAux m b a g f t2
        else if c1 = '&' then m ++ getSubAux m b a g f t2
        else if c1 = Char.ofNat 96 then b ++ getSubAux m b a g f t2
        else if c1 = Char.ofNat 39 then a ++ getSubAux m b a g f t2
        else if c1.isDigit then
          if _h2 : (t2.headD ' ').isDigit ∧ t2 ≠ [] ∧ 1 ≤ twoDig c1 (t2.headD ' ')
              ∧ twoDig c1 (t2.headD ' ') ≤ g.length then
            g.getD (twoDig c1 (t2.headD ' ') - 1) [] ++ getSubAux m b a g f t2.tail
          else if _h1 : 1 ≤ oneDig c1 ∧ oneDig c1 ≤ g.length then
            g.getD (oneDig c1 - 1) [] ++ getSubAux m b a g f t2
          else '$' :: getSubAux m b a g f (c1 :: t2)
        else '$' :: getSubAux m b a g f (c1 :: t2)
    else c :: getSubAux m b a g f t

/-- Expansion of the `$` escapes of a replacement template. -/
def getSub (m b a : Str) (g : List Str) (repl : Str) : Str :=
  getSubAux m b a g repl.length repl

/-- The frontmatter regex `^---\n([\s\S]*?)\n---` of src/main.ts lines
143 and 173: `some (inner, rest)` when the document starts with a
frontmatter block, where `inner` is the captured group and `rest` the text
after the match. -/
def fmMatch (s : Str) : Option (Str × Str) :=
  if (S ("---\n")).isPrefixOf s then
    match firstOcc (S ("\n---")) (s.drop 4) with
    | some i => some ((s.drop 4).take i, (s.drop 4).drop (i + 4))
    | none => none
  else none

/-- The JavaScript regex metacharacters (outside character classes). The
source compiles the configured key into a pattern with
`new RegExp("^" + key + ":", "m")`; when the key contains none of these
characters the pattern always compiles and matches the key text
literally. -/
def regexMetaChars : Str :=
  ['^', '$', '\\', '.', '*', '+', '?', '(', ')', '[', ']', '|',
   Char.ofNat 123, Char.ofNat 125]

/-- The key contains no regex metacharacter, so the compiled pattern
`"^" + key + ":"` denotes the literal text `key ++ ":"` after a line
start. -/
def plainKey (k : Str) : Bool := k.all (fun c => !(regexMetaChars.contains c))

/-- The only line terminator occurring in the text is the newline
character: no carriage return, line separator or paragraph separator.  On
such text the `m`-flag anchor `^` of the source's regexes fires exactly at
the line starts given by `splitNl`. -/
def nlOnly (s : Str) : Bool :=
  s.all (fun c => !(c = Char.ofNat 13 || c = Char.ofNat 8232 || c = Char.ofNat 8233))

/-- The test `new RegExp("^" + key + ":", "m").test(fm)`, embedded on the
domain where the compiled pattern is literal: for a key free of regex
metacharacters (`plainKey`) and text whose only line terminator is the
newline (`nlOnly`), the test holds exactly when some line of `fm` starts
with `key ++ ":"`, which is what this function computes.  Outside that
domain the source interprets the key as a regex (or throws on an invalid
pattern); the theorems that quantify over keys therefore carry `plainKey`
and `nlOnly` side conditions. -/
def keyPresent (key fm : Str) : Bool :=
  (findIdxO (fun l => (key ++ [':']).isPrefixOf l) (splitNl fm)).isSome

/-- The call `content.replace(frontmatterRegex, repl)`: the match is at the
start of the string, so the text before the match is empty. -/
def jsReplaceFm (content repl : Str) : Str :=
  match fmMatch content with
  | none => content
  | some (inner, rest) =>
    getSub (S ("---\n") ++ inner ++ S ("\n---")) [] rest [inner] repl ++ rest

/-- The call `fm.replace(new RegExp("^(" + key + ":).*$", "m"), repl)`,
embedded on the same literal domain as `keyPresent` (`plainKey` key,
`nlOnly` text): the leftmost match is the first line starting with the
literal `key ++ ":"`, the match spans that whole line (`.` excludes line
terminators and `$` stops before the next newline), and capture group 1 is
the literal `key ++ ":"`.  The theorems that use it carry the `plainKey`
and `nlOnly` side conditions. -/
def jsRegexLineReplace (key repl fm : Str) : Str :=
  let ls := splitNl fm
  match findIdxO (fun l => (key ++ [':']).isPrefixOf l) ls with
  | none => fm
  | some j =>
    let bc := if j = 0 then ([] : Str) else joinNl (ls.take j) ++ ['\n']
    let ac := if j + 1 = ls.length then ([] : Str) else '\n' :: joinNl (ls.drop (j + 1))
    joinNl (setIdx ls j (getSub (ls.getD j []) bc ac [key ++ [':']] repl))

/-- The call `s.replace("pat", repl)` with a plain string pattern: first
occurrence, replacement processed with no capture groups. -/
def jsStringReplaceFirst (pat repl s : Str) : Str :=
  match firstOcc pat s with
  | none => s
  | some i =>
    s.take i ++ getSub pat (s.take i) (s.drop (i + pat.length)) [] repl ++ s.drop (i + pat.length)

/-- Embedding of `addFrontmatter` (src/main.ts lines 141-166), with the
configured key names as parameters. -/
def addFrontmatter (ck mk content created modified : Str) : Str :=
  match fmMatch content with
  | some (inner, _) =>
    let fm1 := if keyPresent ck inner then inner
               else (ck ++ (':' :: ' ' :: created)) ++ ('\n' :: inner)
    let fm2 := if keyPresent mk fm1 then fm1
               else fm1 ++ ('\n' :: (mk ++ (':' :: ' ' :: modified)))
    jsReplaceFm content ((S ("---\n")) ++ fm2 ++ (S ("\n---")))
  | none =>
    (S ("---\n")) ++ (ck ++ (':' :: ' ' :: created)) ++ ('\n' :: (mk ++ (':' :: ' ' :: modified)))
      ++ (S ("\n---\n")) ++ content

/-- Embedding of `updateModifiedTime` (src/main.ts lines 171-201). -/
def updateModifiedTime (ck mk content modified : Str) : Str :=
  match fmMatch content with
  | none => content
  | some (inner, _) =>
    let fm1 := if keyPresent mk inner
               then jsRegexLineReplace mk ('$' :: '1' :: ' ' :: modified) inner
               else inner ++ ('\n' :: (mk ++ (':' :: ' ' :: modified)))
    let fm2 := if keyPresent ck fm1 then fm1
               else (ck ++ (':' :: ' ' :: modified)) ++ ('\n' :: fm1)
    jsReplaceFm content ((S ("---\n")) ++ fm2 ++ (S ("\n---")))

/-- A wall-clock time as the source reads it from a JS `Date`: `month` is
`getMonth() + 1`, the calendar month. -/
structure JsDate where
  year : Nat
  month : Nat
  day : Nat
  hour : Nat
  minute : Nat
  second : Nat

def digitChar (n : Nat) : Char :=
  if n = 0 then '0' else if n = 1 then '1' else if n = 2 then '2' else if n = 3 then '3'
  else if n = 4 then '4' else if n = 5 then '5' else if n = 6 then '6' else if n = 7 then '7'
  else if n = 8 then '8' else '9'

/-- Decimal representation with fuel for structural recursion; any fuel at
least the digit count (certainly `n + 1`) gives the digits of `n`. -/
def natStrAux : Nat → Nat → Str
  | 0, _ => []
  | f + 1, n => if n < 10 then [digitChar n] else natStrAux f (n / 10) ++ [digitChar (n % 10)]

/-- Decimal representation, as JS `Number.prototype.toString`. -/
def natStr (n : Nat) : Str := natStrAux (n + 1) n

/-- The `.padStart(2, "0")` of the source. -/
def pad2 (s : Str) : Str := List.replicate (2 - s.length) '0' ++ s

/-- Zero-padding of a year to four digits (used only on the spec side). -/
def pad4 (s : Str) : Str := List.replicate (4 - s.length) '0' ++ s

/-- Embedding of `formatDate` (src/main.ts lines 70-87): sequential first
occurrence replacement of yyyy, MM, dd, HH, mm, ss. -/
def formatDate (fmt : Str) (d : JsDate) : Str :=
  jsStringReplaceFirst (S ("ss")) (pad2 (natStr d.second))
    (jsStringReplaceFirst (S ("mm")) (pad2 (natStr d.minute))
      (jsStringReplaceFirst (S ("HH")) (pad2 (natStr d.hour))
        (jsStringReplaceFirst (S ("dd")) (pad2 (natStr d.day))
          (jsStringReplaceFirst (S ("MM")) (pad2 (natStr d.month))
            (jsStringReplaceFirst (S ("yyyy")) (natStr d.year) fmt)))))

/-- Plain first occurrence substitution, as the spec words it (no `$`
processing of the replacement). -/
def plainReplaceFirst (pat repl s : Str) : Str :=
  match firstOcc pat s with
  | none => s
  | some i => s.take i ++ repl ++ s.drop (i + pat.length)

/-- Modelled from the spec wording of `formatDate`: replace the first
occurrence of each placeholder, in priority order, with the zero-padded
component, leaving other text literal. -/
def formatDateSpec (fmt : Str) (d : JsDate) : Str :=
  plainReplaceFirst (S ("ss")) (pad2 (natStr d.second))
    (plainReplaceFirst (S ("mm")) (pad2 (natStr d.minute))
      (plainReplaceFirst (S ("HH")) (pad2 (natStr d.hour))
        (plainReplaceFirst (S ("dd")) (pad2 (natStr d.day))
          (plainReplaceFirst (S ("MM")) (pad2 (natStr d.month))
            (plainReplaceFirst (S ("yyyy")) (pad4 (natStr d.year)) fmt)))))

/-- Regular expressions over the fragment used by ignore patterns. -/
inductive RE where
  | fail : RE
  | eps : RE
  | chr : Char → RE
  | any : RE
  | seq : RE → RE → RE
  | alt : RE → RE → RE
  | star : RE → RE

def nullable : RE → Bool
  | .fail => false
  | .eps => true
  | .chr _ => false
  | .any => false
  | .seq r1 r2 => nullable r1 && nullable r2
  | .alt r1 r2 => nullable r1 || nullable r2
  | .star _ => true

/-- Brzozowski derivative.  JS `.` does not match a newline. -/
def deriv : RE → Char → RE
  | .fail, _ => .fail
  | .eps, _ => .fail
  | .chr c, x => if x = c then .eps else .fail
  | .any, x => if x = '\n' then .fail else .eps
  | .seq r1 r2, x =>
    if nullable r1 then .alt (.seq (deriv r1 x) r2) (deriv r2 x) else .seq (deriv r1 x) r2
  | .alt r1 r2, x => .alt (deriv r1 x) (deriv r2 x)
  | .star r, x => .seq (deriv r x) (.star r)

/-- Does `r` match the whole of `s`. -/
def rmatch (r : RE) : Str → Bool
  | [] => nullable r
  | c :: t => rmatch (deriv r c) t

/-- Does `r` match some prefix of `s`. -/
def matchHere (r : RE) : Str → Bool
  | [] => nullable r
  | c :: t => nullable r || matchHere (deriv r c) t

/-- Unanchored search, the semantics of `RegExp.prototype.test`. -/
def rtest (r : RE) : Str → Bool
  | [] => nullable r
  | c :: t => matchHere r (c :: t) || rtest r t

/-- Compile a pattern string, with fuel for structural recursion: literal
characters, `.`, and postfix `*`. -/
def compileReAux : Nat → Str → RE
  | _, [] => .eps
  | 0, _ => .eps
  | f + 1, c :: '*' :: t2 => .seq (.star (if c = '.' then .any else .chr c)) (compileReAux f t2)
  | f + 1, c :: t => .seq (if c = '.' then .any else .chr c) (compileReAux f t)

/-- Compile a pattern string: literal characters, `.`, and postfix `*`. -/
def compileRe (s : Str) : RE := compileReAux s.length s

/-- Embedding of `shouldIgnoreFile` (src/main.ts lines 92-97). -/
def shouldIgnoreFile (patterns : List Str) (path : Str) : Bool :=
  patterns.any (fun p => rtest (compileRe p) path)

/-- Outcome of one handler invocation: the content passed to
`vault.modify` (if any), whether that call threw, and the final value of
the `isUpdating` flag. -/
structure HandlerResult where
  write : Option Str
  threw : Bool
  isUpdatingAfter : Bool
  deriving DecidableEq

/-- Embedding of `handleFileCreate` (src/main.ts lines 102-118).  The
`modifyThrows` parameter is the environment: whether `vault.modify` throws
when called. -/
def handleFileCreate (ck mk : Str) (patterns : List Str) (isUpdating : Bool)
    (path content now : Str) (modifyThrows : Bool) : HandlerResult :=
  if isUpdating || shouldIgnoreFile patterns path then ⟨none, false, isUpdating⟩
  else
    let u := addFrontmatter ck mk content now now
    if u = content then ⟨none, false, isUpdating⟩
    else if modifyThrows then ⟨some u, true, true⟩
    else ⟨some u, false, false⟩

/-- Embedding of `handleFileModify` (src/main.ts lines 123-136). -/
def handleFileModify (ck mk : Str) (patterns : List Str) (isUpdating : Bool)
    (path content now : Str) (modifyThrows : Bool) : HandlerResult :=
  if isUpdating || shouldIgnoreFile patterns path then ⟨none, false, isUpdating⟩
  else
    let u := updateModifiedTime ck mk content now
    if u = content then ⟨none, false, isUpdating⟩
    else if modifyThrows then ⟨some u, true, true⟩
    else ⟨some u, false, false⟩

/-- Line-level result of `addFrontmatter` on the lines of an existing
frontmatter block, as the spec words it. -/
def addLines (ck mk created modified : Str) (L : List Str) : List Str :=
  let L1 := if (findIdxO (fun l => (ck ++ [':']).isPrefixOf l) L).isSome then L
            else (ck ++ (':' :: ' ' :: created)) :: L
  if (findIdxO (fun l => (mk ++ [':']).isPrefixOf l) L1).isSome then L1
  else L1 ++ [mk ++ (':' :: ' ' :: modified)]

/-- Modelled from the spec wording of `addFrontmatter`: prepend the created
line if no line starts with the created key, append the modified line if no
line starts with the modified key, preserving everything else. -/
def addFrontmatterSpec (ck mk content created modified : Str) : Str :=
  match fmMatch content with
  | some (inner, rest) =>
    S ("---\n") ++ joinNl (addLines ck mk created modified (splitNl inner)) ++ S ("\n---") ++ rest
  | none =>
    (S ("---\n")) ++ (ck ++ (':' :: ' ' :: created)) ++ ('\n' :: (mk ++ (':' :: ' ' :: modified)))
      ++ (S ("\n---\n")) ++ content

/-- Line-level result of `updateModifiedTime` on the lines of the
frontmatter block, as the spec words it. -/
def updLines (ck mk v : Str) (L : List Str) : List Str :=
  let L1 := match findIdxO (fun l => (mk ++ [':']).isPrefixOf l) L with
            | some j => setIdx L j (mk ++ (':' :: ' ' :: v))
            | none => L ++ [mk ++ (':' :: ' ' :: v)]
  if (findIdxO (fun l => (ck ++ [':']).isPrefixOf l) L1).isSome then L1
  else (ck ++ (':' :: ' ' :: v)) :: L1

/-- Modelled from the spec wording of `updateModifiedTime`: replace the
modified line in place if present else append it, inject the created line
if absent, preserving everything else; no-op without a frontmatter block. -/
def updateModifiedTimeSpec (ck mk content v : Str) : Str :=
  match fmMatch content with
  | none => content
  | some (inner, rest) =>
    S ("---\n") ++ joinNl (updLines ck mk v (splitNl inner)) ++ S ("\n---") ++ rest

/-- An occurrence of `pat` at index `i` of `s`. -/
def occAt (pat s : Str) (i : Nat) : Prop := ∃ u, s.drop i = pat ++ u

/-- No occurrence of `pat` anywhere in `s`. -/
def noOcc (pat s : Str) : Prop := ∀ i, ¬ occAt pat s i

lemma isPrefixOf_iff (p s : Str) : p.isPrefixOf s = true ↔ ∃ u, s = p ++ u := by
  induction p generalizing s with
  | nil => simp [List.isPrefixOf]
  | cons c p ih =>
    cases s with
    | nil => simp [List.isPrefixOf]
    | cons d s =>
      simp only [List.isPrefixOf, Bool.and_eq_true, beq_iff_eq, ih, List.cons_append,
        List.cons.injEq]
      constructor
      · rintro ⟨rfl, u, rfl⟩; exact ⟨u, rfl, rfl⟩
      · rintro ⟨u, rfl, rfl⟩; exact ⟨rfl, u, rfl⟩

lemma isPrefixOf_false_iff (p s : Str) : p.isPrefixOf s = false ↔ ¬ ∃ u, s = p ++ u := by
  rw [← isPrefixOf_iff]
  cases h : p.isPrefixOf s <;> simp [h]

lemma firstOcc_some_occ (pat s : Str) (i : Nat) (h : firstOcc pat s = some i) :
    occAt pat s i := by
  induction s generalizing i with
  | nil =>
    unfold firstOcc at h
    split at h
    · rename_i hp
      obtain ⟨u, hu⟩ := (isPrefixOf_iff pat []).mp hp
      cases h
      exact ⟨u, hu⟩
    · cases h
  | cons c t ih =>
    unfold firstOcc at h
    split at h
    · rename_i hp
      obtain ⟨u, hu⟩ := (isPrefixOf_iff pat (c :: t)).mp hp
      cases h
      exact ⟨u, hu⟩
    · rename_i hp
      cases hf : firstOcc pat t with
      | none => rw [hf] at h; cases h
      | some i' =>
        rw [hf] at h
        simp only [Option.map_some'] at h
        cases h
        exact ih i' hf

lemma firstOcc_some_min (pat s : Str) (i : Nat) (h : firstOcc pat s = some i) :
    ∀ j < i, ¬ occAt pat s j := by
  induction s generalizing i with
  | nil =>
    unfold firstOcc at h
    split at h
    · cases h; omega
    · cases h
  | cons c t ih =>
    unfold firstOcc at h
    split at h
    · cases h; omega
    · rename_i hp
      cases hf : firstOcc pat t with
      | none => rw [hf] at h; cases h
      | some i' =>
        rw [hf] at h
        simp only [Option.map_some'] at h
        cases h
        intro j hj
        cases j with
        | zero =>
          intro ⟨u, hu⟩
          exact absurd ((isPrefixOf_iff pat (c :: t)).mpr ⟨u, hu⟩) (by simp [hp])
        | succ j' =>
          intro ⟨u, hu⟩
          exact ih i' hf j' (by omega) ⟨u, hu⟩

lemma firstOcc_of_occ (pat s : Str) (i : Nat) (h : occAt pat s i) :
    ∃ j, firstOcc pat s = some j := by
  induction s generalizing i with
  | nil =>
    obtain ⟨u, hu⟩ := h
    simp only [List.drop_nil] at hu
    refine ⟨0, ?_⟩
    unfold firstOcc
    rw [if_pos ((isPrefixOf_iff pat []).mpr ⟨u, hu⟩)]
  | cons c t ih =>
    by_cases hp : pat.isPrefixOf (c :: t) = true
    · exact ⟨0, by unfold firstOcc; rw [if_pos hp]⟩
    · cases i with
      | zero =>
        obtain ⟨u, hu⟩ := h
        simp only [List.drop_zero] at hu
        exact absurd ((isPrefixOf_iff pat (c :: t)).mpr ⟨u, hu⟩) (by simp [hp])
      | succ i' =>
        obtain ⟨j, hj⟩ := ih i' h
        refine ⟨j + 1, ?_⟩
        unfold firstOcc
        rw [if_neg (by simp [hp]), hj]
        rfl

lemma firstOcc_none_noOcc (pat s : Str) (h : firstOcc pat s = none) : noOcc pat s := by
  intro i hi
  obtain ⟨j, hj⟩ := firstOcc_of_occ pat s i hi
  rw [h] at hj
  cases hj

lemma firstOcc_at_min (pat s : Str) (i : Nat) (h : occAt pat s i)
    (hmin : ∀ j < i, ¬ occAt pat s j) : firstOcc pat s = some i := by
  obtain ⟨j, hj⟩ := firstOcc_of_occ pat s i h
  have hocc := firstOcc_some_occ pat s j hj
  have hminj := firstOcc_some_min pat s j hj
  rcases Nat.lt_trichotomy i j with hlt | rfl | hgt
  · exact absurd h (hminj i hlt)
  · exact hj
  · exact absurd hocc (hmin j hgt)

lemma splitNl_ne_nil (s : Str) : splitNl s ≠ [] := by
  cases s with
  | nil => simp [splitNl]
  | cons c t =>
    unfold splitNl
    split <;> simp

lemma splitNl_cons_nl (t : Str) : splitNl ('\n' :: t) = [] :: splitNl t := by
  simp [splitNl]

lemma splitNl_cons_ne (c : Char) (t : Str) (hc : c ≠ '\n') :
    splitNl (c :: t) = (c :: (splitNl t).headD []) :: (splitNl t).tail := by
  simp [splitNl, hc]

lemma splitNl_append_nl (a b : Str) : splitNl (a ++ '\n' :: b) = splitNl a ++ splitNl b := by
  induction a with
  | nil => simp [splitNl]
  | cons c t ih =>
    by_cases hc : c = '\n'
    · subst hc
      simp only [List.cons_append, splitNl_cons_nl, ih, List.cons_append]
    · rw [List.cons_append, splitNl_cons_ne c _ hc, splitNl_cons_ne c t hc, ih]
      obtain ⟨h, tl, hh⟩ : ∃ h tl, splitNl t = h :: tl := by
        cases hs : splitNl t with
        | nil => exact absurd hs (splitNl_ne_nil t)
        | cons h tl => exact ⟨h, tl, rfl⟩
      rw [hh]
      simp

lemma splitNl_no_nl (s : Str) (h : '\n' ∉ s) : splitNl s = [s] := by
  induction s with
  | nil => simp [splitNl]
  | cons c t ih =>
    have hc : c ≠ '\n' := fun hc => h (hc ▸ List.mem_cons_self c t)
    rw [splitNl_cons_ne c t hc, ih (fun ht => h (List.mem_cons_of_mem c ht))]
    simp

lemma mem_splitNl_no_nl (s l : Str) (h : l ∈ splitNl s) : '\n' ∉ l := by
  induction s generalizing l with
  | nil =>
    simp only [splitNl, List.mem_singleton] at h
    subst h; simp
  | cons c t ih =>
    by_cases hc : c = '\n'
    · subst hc
      rw [splitNl_cons_nl] at h
      rcases List.mem_cons.mp h with rfl | h
      · simp
      · exact ih l h
    · rw [splitNl_cons_ne c t hc] at h
      rcases List.mem_cons.mp h with rfl | h
      · intro hm
        rcases List.mem_cons.mp hm with rfl | hm
        · exact hc rfl
        · obtain ⟨h0, tl0, hh⟩ : ∃ h0 tl0, splitNl t = h0 :: tl0 := by
            cases hs : splitNl t with
            | nil => exact absurd hs (splitNl_ne_nil t)
            | cons h0 tl0 => exact ⟨h0, tl0, rfl⟩
          have : h0 ∈ splitNl t := by rw [hh]; exact List.mem_cons_self _ _
          have := ih h0 this
          rw [hh] at hm
          simp only [List.headD_cons] at hm
          exact this hm
      · obtain ⟨h0, tl0, hh⟩ : ∃ h0 tl0, splitNl t = h0 :: tl0 := by
          cases hs : splitNl t with
          | nil => exact absurd hs (splitNl_ne_nil t)
          | cons h0 tl0 => exact ⟨h0, tl0, rfl⟩
        rw [hh] at h
        simp only [List.tail_cons] at h
        exact ih l (by rw [hh]; exact List.mem_cons_of_mem _ h)

lemma mem_splitNl_subset (s l : Str) (h : l ∈ splitNl s) (c : Char) (hc : c ∈ l) : c ∈ s := by
  induction s generalizing l with
  | nil =>
    simp only [splitNl, List.mem_singleton] at h
    subst h; simp at hc
  | cons d t ih =>
    by_cases hd : d = '\n'
    · subst hd
      rw [splitNl_cons_nl] at h
      rcases List.mem_cons.mp h with rfl | h
      · simp at hc
      · exact List.mem_cons_of_mem _ (ih l h hc)
    · rw [splitNl_cons_ne d t hd] at h
      obtain ⟨h0, tl0, hh⟩ : ∃ h0 tl0, splitNl t = h0 :: tl0 := by
        cases hs : splitNl t with
        | nil => exact absurd hs (splitNl_ne_nil t)
        | cons h0 tl0 => exact ⟨h0, tl0, rfl⟩
      rw [hh] at h
      simp only [List.headD_cons, List.tail_cons] at h
      rcases List.mem_cons.mp h with rfl | h
      · rcases List.mem_cons.mp hc with rfl | hc
        · exact List.mem_cons_self _ _
        · exact List.mem_cons_of_mem _ (ih h0 (by rw [hh]; exact List.mem_cons_self _ _) hc)
      · exact List.mem_cons_of_mem _ (ih l (by rw [hh]; exact List.mem_cons_of_mem _ h) hc)

lemma joinNl_cons (l : Str) (L : List Str) (h : L ≠ []) :
    joinNl (l :: L) = l ++ '\n' :: joinNl L := by
  cases L with
  | nil => exact absurd rfl h
  | cons l2 ls => rfl

lemma joinNl_append (L1 L2 : List Str) (h1 : L1 ≠ []) (h2 : L2 ≠ []) :
    joinNl (L1 ++ L2) = joinNl L1 ++ '\n' :: joinNl L2 := by
  induction L1 with
  | nil => exact absurd rfl h1
  | cons l t ih =>
    cases t with
    | nil =>
      rw [List.singleton_append, joinNl_cons l L2 h2]
      rfl
    | cons l2 ls =>
      rw [List.cons_append, joinNl_cons l _ (by simp), joinNl_cons l (l2 :: ls) (by simp), ih (by simp)]
      simp

lemma joinNl_splitNl (s : Str) : joinNl (splitNl s) = s := by
  induction s with
  | nil => rfl
  | cons c t ih =>
    by_cases hc : c = '\n'
    · subst hc
      rw [splitNl_cons_nl, joinNl_cons _ _ (splitNl_ne_nil t), ih]
      rfl
    · rw [splitNl_cons_ne c t hc]
      obtain ⟨h0, tl0, hh⟩ : ∃ h0 tl0, splitNl t = h0 :: tl0 := by
        cases hs : splitNl t with
        | nil => exact absurd hs (splitNl_ne_nil t)
        | cons h0 tl0 => exact ⟨h0, tl0, rfl⟩
      rw [hh]
      simp only [List.headD_cons, List.tail_cons]
      cases tl0 with
      | nil =>
        have : joinNl [h0] = t := by rw [← hh, ih]
        simp only [joinNl] at this ⊢
        rw [this]
      | cons l2 ls =>
        rw [hh, joinNl_cons _ _ (by simp)] at ih
        rw [joinNl_cons _ _ (by simp), ← ih]
        simp

lemma splitNl_joinNl (L : List Str) (hL : L ≠ []) (h : ∀ l ∈ L, '\n' ∉ l) :
    splitNl (joinNl L) = L := by
  induction L with
  | nil => exact absurd rfl hL
  | cons l t ih =>
    cases t with
    | nil =>
      simp only [joinNl]
      exact splitNl_no_nl l (h l (List.mem_cons_self _ _))
    | cons l2 ls =>
      rw [joinNl_cons _ _ (by simp), splitNl_append_nl,
        splitNl_no_nl l (h l (List.mem_cons_self _ _)),
        ih (by simp) (fun x hx => h x (List.mem_cons_of_mem _ hx))]
      rfl

lemma headD_splitNl_pfx (s : Str) : ∃ u, s = (splitNl s).headD [] ++ u := by
  induction s with
  | nil => exact ⟨[], rfl⟩
  | cons c t ih =>
    by_cases hc : c = '\n'
    · subst hc
      rw [splitNl_cons_nl]
      exact ⟨'\n' :: t, rfl⟩
    · rw [splitNl_cons_ne c t hc]
      obtain ⟨u, hu⟩ := ih
      exact ⟨u, by simp only [List.headD_cons, List.cons_append]; rw [← hu]⟩

lemma pfx_headD_splitNl (p x : Str) (hp : '\n' ∉ p) (h : ∃ u, x = p ++ u) :
    ∃ u, (splitNl x).headD [] = p ++ u := by
  induction p generalizing x with
  | nil => exact ⟨(splitNl x).headD [], rfl⟩
  | cons c p' ih =>
    obtain ⟨u, hu⟩ := h
    subst hu
    have hc : c ≠ '\n' := fun hc => hp (hc ▸ List.mem_cons_self c p')
    rw [List.cons_append, splitNl_cons_ne c _ hc]
    obtain ⟨u', hu'⟩ := ih (p' ++ u) (fun hm => hp (List.mem_cons_of_mem c hm)) ⟨u, rfl⟩
    exact ⟨u', by simp only [List.headD_cons, List.cons_append]; rw [hu']⟩

lemma findIdxO_none_iff (p : Str → Bool) (L : List Str) :
    findIdxO p L = none ↔ ∀ l ∈ L, p l = false := by
  induction L with
  | nil => simp [findIdxO]
  | cons l t ih =>
    unfold findIdxO
    by_cases hp : p l
    · simp [hp]
    · simp only [if_neg hp, Option.map_eq_none', ih, List.mem_cons]
      constructor
      · rintro h x (rfl | hx)
        · exact Bool.not_eq_true _ ▸ (by simpa using hp)
        · exact h x hx
      · intro h x hx
        exact h x (Or.inr hx)

lemma findIdxO_some_spec (p : Str → Bool) (L : List Str) (j : Nat)
    (h : findIdxO p L = some j) :
    j < L.length ∧ p (L.getD j []) = true ∧ ∀ k < j, p (L.getD k []) = false := by
  induction L generalizing j with
  | nil => cases h
  | cons l t ih =>
    unfold findIdxO at h
    by_cases hp : p l
    · rw [if_pos hp] at h
      cases h
      exact ⟨by simp, hp, by omega⟩
    · rw [if_neg hp] at h
      cases hf : findIdxO p t with
      | none => rw [hf] at h; cases h
      | some j' =>
        rw [hf] at h
        simp only [Option.map_some'] at h
        cases h
        obtain ⟨h1, h2, h3⟩ := ih j' hf
        refine ⟨by simpa using h1, by simpa using h2, ?_⟩
        intro k hk
        cases k with
        | zero => simpa using (Bool.not_eq_true _ ▸ (by simpa using hp))
        | succ k' => simpa using h3 k' (by omega)

lemma findIdxO_at_min (p : Str → Bool) (L : List Str) (j : Nat)
    (h1 : j < L.length) (h2 : p (L.getD j []) = true)
    (h3 : ∀ k < j, p (L.getD k []) = false) : findIdxO p L = some j := by
  induction L generalizing j with
  | nil => simp at h1
  | cons l t ih =>
    unfold findIdxO
    cases j with
    | zero =>
      simp only [List.getD_cons_zero] at h2
      rw [if_pos h2]
    | succ j' =>
      have hp : p l = false := by simpa using h3 0 (by omega)
      rw [if_neg (by simp [hp])]
      rw [ih j' (by simpa using h1) (by simpa using h2)
        (fun k hk => by simpa using h3 (k + 1) (by omega))]
      rfl

lemma getD_mem_of_lt (L : List Str) (k : Nat) (d : Str) (h : k < L.length) :
    L.getD k d ∈ L := by
  induction L generalizing k with
  | nil => simp at h
  | cons l t ih =>
    cases k with
    | zero => exact List.mem_cons_self _ _
    | succ k' => exact List.mem_cons_of_mem _ (ih k' (by simpa using h))

lemma findIdxO_isSome_iff (p : Str → Bool) (L : List Str) :
    (findIdxO p L).isSome = true ↔ ∃ l ∈ L, p l = true := by
  cases h : findIdxO p L with
  | none =>
    simp only [Option.isSome_none, Bool.false_eq_true, false_iff]
    rintro ⟨l, hl, hp⟩
    rw [(findIdxO_none_iff p L).mp h l hl] at hp
    cases hp
  | some j =>
    simp only [Option.isSome_some, true_iff]
    obtain ⟨h1, h2, _⟩ := findIdxO_some_spec p L j h
    exact ⟨L.getD j [], getD_mem_of_lt L j [] h1, h2⟩

lemma length_setIdx (L : List Str) (j : Nat) (x : Str) :
    (setIdx L j x).length = L.length := by
  induction L generalizing j with
  | nil => rfl
  | cons l t ih =>
    cases j with
    | zero => rfl
    | succ j' => simp [setIdx, ih]

lemma getD_setIdx_self (L : List Str) (j : Nat) (x d : Str) (h : j < L.length) :
    (setIdx L j x).getD j d = x := by
  induction L generalizing j with
  | nil => simp at h
  | cons l t ih =>
    cases j with
    | zero => rfl
    | succ j' => simpa [setIdx] using ih j' (by simpa using h)

lemma getD_setIdx_ne (L : List Str) (j k : Nat) (x d : Str) (h : k ≠ j) :
    (setIdx L j x).getD k d = L.getD k d := by
  induction L generalizing j k with
  | nil => rfl
  | cons l t ih =>
    cases j with
    | zero =>
      cases k with
      | zero => exact absurd rfl h
      | succ k' => rfl
    | succ j' =>
      cases k with
      | zero => rfl
      | succ k' => simpa [setIdx] using ih j' k' (by omega)

lemma setIdx_eq_self (L : List Str) (j : Nat) (x : Str) (h : L.getD j [] = x) :
    setIdx L j x = L := by
  induction L generalizing j with
  | nil => rfl
  | cons l t ih =>
    cases j with
    | zero => simpa [setIdx] using h.symm
    | succ j' => simp [setIdx, ih j' (by simpa using h)]

lemma mem_setIdx (L : List Str) (j : Nat) (x l : Str) (h : l ∈ setIdx L j x) :
    l ∈ L ∨ l = x := by
  induction L generalizing j with
  | nil => simp [setIdx] at h
  | cons a t ih =>
    cases j with
    | zero =>
      rcases List.mem_cons.mp h with rfl | h
      · exact Or.inr rfl
      · exact Or.inl (List.mem_cons_of_mem _ h)
    | succ j' =>
      rcases List.mem_cons.mp h with rfl | h
      · exact Or.inl (List.mem_cons_self _ _)
      · rcases ih j' h with h' | h'
        · exact Or.inl (List.mem_cons_of_mem _ h')
        · exact Or.inr h'

lemma getSubAux_nil (m b a : Str) (g : List Str) (f : Nat) : getSubAux m b a g f [] = [] := by
  cases f <;> rfl

lemma getSubAux_irrel (m b a : Str) (g : List Str) :
    ∀ f1 f2 s, s.length ≤ f1 → s.length ≤ f2 →
      getSubAux m b a g f1 s = getSubAux m b a g f2 s := by
  intro f1
  induction f1 using Nat.strong_induction_on with
  | _ f1 ih =>
    intro f2 s h1 h2
    cases s with
    | nil => rw [getSubAux_nil, getSubAux_nil]
    | cons c t =>
      have hs : (c :: t).length = t.length + 1 := by simp
      obtain ⟨g1, rfl⟩ : ∃ g1, f1 = g1 + 1 := ⟨f1 - 1, by omega⟩
      obtain ⟨g2, rfl⟩ : ∃ g2, f2 = g2 + 1 := ⟨f2 - 1, by omega⟩
      by_cases hc : c = '$'
      · subst hc
        cases t with
        | nil => rfl
        | cons c1 t2 =>
          have hlt2 : t2.length ≤ g1 ∧ t2.length ≤ g2 := by
            simp only [List.length_cons] at h1 h2
            omega
          have htail : t2.tail.length ≤ g1 ∧ t2.tail.length ≤ g2 := by
            have := List.length_tail t2
            omega
          have hcons : (c1 :: t2).length ≤ g1 ∧ (c1 :: t2).length ≤ g2 := by
            simp only [List.length_cons] at h1 h2 ⊢
            omega
          have e1 : getSubAux m b a g g1 t2 = getSubAux m b a g g2 t2 :=
            ih g1 (by omega) g2 t2 hlt2.1 hlt2.2
          have e2 : getSubAux m b a g g1 t2.tail = getSubAux m b a g g2 t2.tail :=
            ih g1 (by omega) g2 t2.tail htail.1 htail.2
          have e3 : getSubAux m b a g g1 (c1 :: t2) = getSubAux m b a g g2 (c1 :: t2) :=
            ih g1 (by omega) g2 (c1 :: t2) hcons.1 hcons.2
          simp only [getSubAux]
          rw [e1, e2, e3]
      · simp only [getSubAux, if_neg hc]
        rw [ih g1 (by omega) g2 t (by simp only [List.length_cons] at h1; omega)
          (by simp only [List.length_cons] at h2; omega)]

lemma getSub_nil (m b a : Str) (g : List Str) : getSub m b a g [] = [] := rfl

lemma getSub_cons_ne (m b a : Str) (g : List Str) (c : Char) (t : Str) (hc : c ≠ '$') :
    getSub m b a g (c :: t) = c :: getSub m b a g t := by
  show getSubAux m b a g (c :: t).length (c :: t) = c :: getSubAux m b a g t.length t
  rw [List.length_cons]
  simp only [getSubAux, if_neg hc]

lemma getSub_id (m b a : Str) (g : List Str) (repl : Str) (h : '$' ∉ repl) :
    getSub m b a g repl = repl := by
  induction repl with
  | nil => exact getSub_nil m b a g
  | cons c t ih =>
    have hc : c ≠ '$' := fun hc => h (hc ▸ List.mem_cons_self c t)
    rw [getSub_cons_ne m b a g c t hc, ih (fun hm => h (List.mem_cons_of_mem c hm))]

lemma getSub_dollar1 (m b a g1 v : Str) (h : '$' ∉ v) :
    getSub m b a [g1] ('$' :: '1' :: ' ' :: v) = g1 ++ ' ' :: v := by
  show getSubAux m b a [g1] ('$' :: '1' :: ' ' :: v).length ('$' :: '1' :: ' ' :: v)
      = g1 ++ ' ' :: v
  rw [List.length_cons, List.length_cons, List.length_cons]
  have hod : oneDig '1' = 1 := by decide
  rw [getSubAux.eq_def]
  simp only [List.headD_cons, List.tail_cons]
  rw [if_pos trivial, if_neg (by decide), if_neg (by decide), if_neg (by decide),
    if_neg (by decide), if_pos (by decide),
    dif_neg (fun hcon => absurd hcon.1 (by decide)),
    dif_pos ⟨le_of_eq hod.symm, by rw [hod]; simp⟩]
  have hstep : getSubAux m b a [g1] (v.length + 1 + 1) (' ' :: v)
      = ' ' :: getSubAux m b a [g1] (v.length + 1) v := by
    rw [getSubAux.eq_def]
    simp only []
    rw [if_neg (by decide : ¬(' ' : Char) = '$')]
  rw [hstep, getSubAux_irrel m b a [g1] (v.length + 1) v.length v (by omega) (by omega)]
  have hid : getSubAux m b a [g1] v.length v = v := getSub_id m b a [g1] v h
  rw [hid, hod]
  simp [List.getD]

lemma fmMatch_some_decomp (s inner rest : Str) (h : fmMatch s = some (inner, rest)) :
    s = S ("---\n") ++ inner ++ S ("\n---") ++ rest ∧ noOcc (S ("\n---")) inner := by
  unfold fmMatch at h
  split at h
  · rename_i hp
    obtain ⟨r, hr⟩ := (isPrefixOf_iff _ _).mp hp
    have hdrop : s.drop 4 = r := by
      rw [hr, show (4 : Nat) = (S ("---\n")).length from rfl, List.drop_left]
    rw [hdrop] at h
    cases hf : firstOcc (S ("\n---")) r with
    | none => rw [hf] at h; cases h
    | some i =>
      rw [hf] at h
      simp only [Option.some.injEq, Prod.mk.injEq] at h
      obtain ⟨hin, hrest⟩ := h
      obtain ⟨u, hu⟩ := firstOcc_some_occ _ _ _ hf
      have hmin := firstOcc_some_min _ _ _ hf
      have hu4 : u = r.drop (i + 4) := by
        have : (r.drop i).drop 4 = u := by
          rw [hu, show (4 : Nat) = (S ("\n---")).length from rfl, List.drop_left]
        rw [← this, List.drop_drop]
      constructor
      · rw [hr, ← hin, ← hrest, ← hu4]
        have : r = r.take i ++ r.drop i := (List.take_append_drop i r).symm
        rw [show S ("---\n") ++ r.take i ++ S ("\n---") ++ u
            = S ("---\n") ++ (r.take i ++ (S ("\n---") ++ u)) by simp [List.append_assoc],
          ← hu, ← this]
      · subst hin
        intro j ⟨w, hw⟩
        have hlen : 4 + w.length ≤ i - j := by
          have h2 : ((r.take i).drop j).length ≤ i - j := by
            rw [List.drop_take, List.length_take]
            exact min_le_left _ _
          rw [hw, List.length_append] at h2
          have h4 : (S ("\n---")).length = 4 := rfl
          omega
        have hji : j + 4 ≤ i := by omega
        apply hmin j (by omega)
        refine ⟨w ++ (r.drop j).drop (i - j), ?_⟩
        have hsplit : r.drop j = ((r.take i).drop j) ++ (r.drop j).drop (i - j) := by
          rw [List.drop_take]
          exact (List.take_append_drop (i - j) (r.drop j)).symm
        calc r.drop j = ((r.take i).drop j) ++ (r.drop j).drop (i - j) := hsplit
          _ = (S ("\n---") ++ w) ++ (r.drop j).drop (i - j) := by rw [hw]
          _ = S ("\n---") ++ (w ++ (r.drop j).drop (i - j)) := by rw [List.append_assoc]
  · cases h

lemma fmMatch_build (F b : Str) (hF : noOcc (S ("\n---")) F) :
    fmMatch (S ("---\n") ++ F ++ S ("\n---") ++ b) = some (F, b) := by
  have hassoc : S ("---\n") ++ F ++ S ("\n---") ++ b
      = S ("---\n") ++ (F ++ (S ("\n---") ++ b)) := by simp [List.append_assoc]
  have h4 : (S ("\n---")).length = 4 := rfl
  have hpre : (S ("---\n")).isPrefixOf (S ("---\n") ++ F ++ S ("\n---") ++ b) = true :=
    (isPrefixOf_iff _ _).mpr ⟨F ++ (S ("\n---") ++ b), hassoc⟩
  have hdrop : (S ("---\n") ++ F ++ S ("\n---") ++ b).drop 4 = F ++ (S ("\n---") ++ b) := by
    rw [hassoc, show (4 : Nat) = (S ("---\n")).length from rfl, List.drop_left]
  have hocc : occAt (S ("\n---")) (F ++ (S ("\n---") ++ b)) F.length :=
    ⟨b, by rw [List.drop_left]⟩
  have hmin : ∀ j < F.length, ¬ occAt (S ("\n---")) (F ++ (S ("\n---") ++ b)) j := by
    intro j hj ⟨w, hw⟩
    rw [List.drop_append_eq_append_drop, show j - F.length = 0 by omega, List.drop_zero] at hw
    have hlenD : (F.drop j).length = F.length - j := List.length_drop j F
    have htakehw := congrArg (List.take 4) hw
    have hRHS : (S ("\n---") ++ w).take 4 = S ("\n---") := by
      conv_lhs => rw [← h4]
      exact List.take_left _ _
    rw [hRHS, List.take_append_eq_append_take] at htakehw
    by_cases hk : 4 ≤ F.length - j
    · rw [show (4 : Nat) - (F.drop j).length = 0 by omega, List.take_zero,
        List.append_nil] at htakehw
      apply hF j
      refine ⟨(F.drop j).drop 4, ?_⟩
      calc F.drop j = (F.drop j).take 4 ++ (F.drop j).drop 4 :=
            (List.take_append_drop 4 (F.drop j)).symm
        _ = S ("\n---") ++ (F.drop j).drop 4 := by rw [htakehw]
    · have hk1 : 1 ≤ F.length - j := by omega
      rw [List.take_of_length_le (le_of_eq_of_le hlenD (by omega)),
        List.take_append_eq_append_take, h4,
        show 4 - (F.drop j).length - 4 = 0 by omega, List.take_zero,
        List.append_nil] at htakehw
      have hpat : S ("\n---") = F.drop j ++ (S ("\n---")).take (4 - (F.length - j)) := by
        rw [← hlenD]; exact htakehw.symm
      have hcases : F.length - j = 1 ∨ F.length - j = 2 ∨ F.length - j = 3 := by omega
      rcases hcases with hc | hc | hc
      · obtain ⟨x, hx⟩ := List.length_eq_one.mp (by rw [hlenD, hc])
        rw [hx, hc] at hpat
        have : ('\n' :: '-' :: '-' :: '-' :: ([] : Str))
            = x :: '\n' :: '-' :: '-' :: ([] : Str) := hpat
        simp only [List.cons.injEq] at this
        exact absurd this.2.1 (by decide)
      · obtain ⟨x, y, hxy⟩ := List.length_eq_two.mp (by rw [hlenD, hc])
        rw [hxy, hc] at hpat
        have : ('\n' :: '-' :: '-' :: '-' :: ([] : Str))
            = x :: y :: '\n' :: '-' :: ([] : Str) := hpat
        simp only [List.cons.injEq] at this
        exact absurd this.2.2.1 (by decide)
      · obtain ⟨x, y, z, hxyz⟩ := List.length_eq_three.mp (by rw [hlenD, hc])
        rw [hxyz, hc] at hpat
        have : ('\n' :: '-' :: '-' :: '-' :: ([] : Str))
            = x :: y :: z :: '\n' :: ([] : Str) := hpat
        simp only [List.cons.injEq] at this
        exact absurd this.2.2.2.1 (by decide)
  have htake : (F ++ (S ("\n---") ++ b)).take F.length = F := List.take_left F _
  have hdropb : (F ++ (S ("\n---") ++ b)).drop (F.length + 4) = b := by
    rw [List.drop_append_eq_append_drop, List.drop_of_length_le (by omega),
      show F.length + 4 - F.length = 4 by omega, List.nil_append, ← h4, List.drop_left]
  unfold fmMatch
  rw [if_pos hpre, hdrop, firstOcc_at_min _ _ _ hocc hmin]
  show some ((F ++ (S ("\n---") ++ b)).take F.length,
      (F ++ (S ("\n---") ++ b)).drop (F.length + 4)) = some (F, b)
  rw [htake, hdropb]

lemma fmMatch_isSome_iff (s : Str) :
    (fmMatch s).isSome = true ↔ ∃ a b, s = S ("---\n") ++ a ++ S ("\n---") ++ b := by
  constructor
  · intro h
    cases hm : fmMatch s with
    | none => rw [hm] at h; cases h
    | some p =>
      obtain ⟨inner, rest⟩ := p
      obtain ⟨hdec, _⟩ := fmMatch_some_decomp s inner rest hm
      exact ⟨inner, rest, hdec⟩
  · rintro ⟨a, b, rfl⟩
    have hassoc : S ("---\n") ++ a ++ S ("\n---") ++ b
        = S ("---\n") ++ (a ++ (S ("\n---") ++ b)) := by simp [List.append_assoc]
    have hpre : (S ("---\n")).isPrefixOf (S ("---\n") ++ a ++ S ("\n---") ++ b) = true :=
      (isPrefixOf_iff _ _).mpr ⟨a ++ (S ("\n---") ++ b), hassoc⟩
    have hdrop : (S ("---\n") ++ a ++ S ("\n---") ++ b).drop 4 = a ++ (S ("\n---") ++ b) := by
      rw [hassoc, show (4 : Nat) = (S ("---\n")).length from rfl, List.drop_left]
    have hocc : occAt (S ("\n---")) (a ++ (S ("\n---") ++ b)) a.length :=
      ⟨b, by rw [List.drop_left]⟩
    obtain ⟨j, hj⟩ := firstOcc_of_occ _ _ _ hocc
    unfold fmMatch
    rw [if_pos hpre, hdrop, hj]
    rfl

lemma occ_to_tail_line (s p : Str) (hp : '\n' ∉ p) (i : Nat)
    (h : occAt ('\n' :: p) s i) : ∃ l ∈ (splitNl s).tail, ∃ u, l = p ++ u := by
  obtain ⟨u, hu⟩ := h
  have hs : s = s.take i ++ '\n' :: (p ++ u) := by
    rw [show '\n' :: (p ++ u) = ('\n' :: p) ++ u from rfl, ← hu, List.take_append_drop]
  have hsplit : splitNl s = splitNl (s.take i) ++ splitNl (p ++ u) := by
    conv_lhs => rw [hs]
    exact splitNl_append_nl _ _
  obtain ⟨h0, t0, hh0⟩ : ∃ h0 t0, splitNl (s.take i) = h0 :: t0 := by
    cases he : splitNl (s.take i) with
    | nil => exact absurd he (splitNl_ne_nil _)
    | cons h0 t0 => exact ⟨h0, t0, rfl⟩
  obtain ⟨h1, t1, hh1⟩ : ∃ h1 t1, splitNl (p ++ u) = h1 :: t1 := by
    cases he : splitNl (p ++ u) with
    | nil => exact absurd he (splitNl_ne_nil _)
    | cons h1 t1 => exact ⟨h1, t1, rfl⟩
  refine ⟨h1, ?_, ?_⟩
  · rw [hsplit, hh0, hh1]
    simp
  · obtain ⟨u', hu'⟩ := pfx_headD_splitNl p (p ++ u) hp ⟨u, rfl⟩
    rw [hh1] at hu'
    exact ⟨u', by simpa using hu'⟩

lemma tail_line_to_occ (s : Str) (p : Str) :
    ∀ l ∈ (splitNl s).tail, (∃ u, l = p ++ u) → ∃ i, occAt ('\n' :: p) s i := by
  induction s with
  | nil =>
    intro l hl
    simp [splitNl] at hl
  | cons c t ih =>
    intro l hl hpfx
    by_cases hc : c = '\n'
    · subst hc
      rw [splitNl_cons_nl, List.tail_cons] at hl
      obtain ⟨h0, t0, hh0⟩ : ∃ h0 t0, splitNl t = h0 :: t0 := by
        cases he : splitNl t with
        | nil => exact absurd he (splitNl_ne_nil _)
        | cons h0 t0 => exact ⟨h0, t0, rfl⟩
      rw [hh0] at hl
      rcases List.mem_cons.mp hl with rfl | hl
      · obtain ⟨u, hu⟩ := hpfx
        obtain ⟨u0, hu0⟩ := headD_splitNl_pfx t
        rw [hh0] at hu0
        simp only [List.headD_cons] at hu0
        refine ⟨0, u ++ u0, ?_⟩
        show '\n' :: t = ('\n' :: p) ++ (u ++ u0)
        rw [hu0, hu]
        simp [List.append_assoc]
      · obtain ⟨i, hi⟩ := ih l (by rw [hh0]; exact hl) hpfx
        exact ⟨i + 1, hi⟩
    · rw [splitNl_cons_ne c t hc, List.tail_cons] at hl
      obtain ⟨i, hi⟩ := ih l hl hpfx
      exact ⟨i + 1, hi⟩

lemma noOcc_of_tail_lines (F : Str)
    (h : ∀ l ∈ (splitNl F).tail, ¬ ∃ u, l = S ("---") ++ u) :
    noOcc (S ("\n---")) F := by
  intro i hocc
  have hocc' : occAt ('\n' :: S ("---")) F i := hocc
  obtain ⟨l, hl, hu⟩ := occ_to_tail_line F (S ("---")) (by decide) i hocc'
  exact h l hl hu

lemma tail_lines_of_noOcc (F : Str) (h : noOcc (S ("\n---")) F) :
    ∀ l ∈ (splitNl F).tail, ¬ ∃ u, l = S ("---") ++ u := by
  intro l hl hu
  obtain ⟨i, hi⟩ := tail_line_to_occ F (S ("---")) l hl hu
  exact h i hi

lemma char_not_mem_joinNl (c : Char) (hc : c ≠ '\n') (L : List Str)
    (h : ∀ l ∈ L, c ∉ l) : c ∉ joinNl L := by
  induction L with
  | nil => simp [joinNl]
  | cons l t ih =>
    cases t with
    | nil => simpa [joinNl] using h l (List.mem_cons_self _ _)
    | cons l2 ls =>
      rw [joinNl_cons _ _ (by simp)]
      intro hmem
      rcases List.mem_append.mp hmem with hmem | hmem
      · exact h l (List.mem_cons_self _ _) hmem
      · rcases List.mem_cons.mp hmem with rfl | hmem
        · exact hc rfl
        · exact ih (fun x hx => h x (List.mem_cons_of_mem _ hx)) hmem

lemma not_mem_keyline (c : Char) (k v : Str) (h1 : c ∉ k) (h2 : c ∉ v)
    (h3 : c ≠ ':') (h4 : c ≠ ' ') : c ∉ k ++ ':' :: ' ' :: v := by
  intro hmem
  rcases List.mem_append.mp hmem with hmem | hmem
  · exact h1 hmem
  · rcases List.mem_cons.mp hmem with rfl | hmem
    · exact h3 rfl
    · rcases List.mem_cons.mp hmem with rfl | hmem
      · exact h4 rfl
      · exact h2 hmem

lemma mem_updLines (ck mk v : Str) (L : List Str) (l : Str) (h : l ∈ updLines ck mk v L) :
    l ∈ L ∨ l = mk ++ ':' :: ' ' :: v ∨ l = ck ++ ':' :: ' ' :: v := by
  unfold updLines at h
  set mkLine := mk ++ ':' :: ' ' :: v with hmk
  set ckLine := ck ++ ':' :: ' ' :: v with hck
  cases hf : findIdxO (fun l => (mk ++ [':']).isPrefixOf l) L with
  | some j =>
    rw [hf] at h
    simp only [] at h
    split at h
    · rcases mem_setIdx L j mkLine l h with h' | h'
      · exact Or.inl h'
      · exact Or.inr (Or.inl h')
    · rcases List.mem_cons.mp h with rfl | h'
      · exact Or.inr (Or.inr rfl)
      · rcases mem_setIdx L j mkLine l h' with h'' | h''
        · exact Or.inl h''
        · exact Or.inr (Or.inl h'')
  | none =>
    rw [hf] at h
    simp only [] at h
    split at h
    · rcases List.mem_append.mp h with h' | h'
      · exact Or.inl h'
      · exact Or.inr (Or.inl (List.mem_singleton.mp h'))
    · rcases List.mem_cons.mp h with rfl | h'
      · exact Or.inr (Or.inr rfl)
      · rcases List.mem_append.mp h' with h'' | h''
        · exact Or.inl h''
        · exact Or.inr (Or.inl (List.mem_singleton.mp h''))

lemma updLines_ne_nil (ck mk v : Str) (L : List Str) (hL : L ≠ []) :
    updLines ck mk v L ≠ [] := by
  unfold updLines
  cases hf : findIdxO (fun l => (mk ++ [':']).isPrefixOf l) L with
  | some j =>
    simp only []
    split
    · intro he
      have := length_setIdx L j (mk ++ ':' :: ' ' :: v)
      rw [he] at this
      cases L with
      | nil => exact hL rfl
      | cons a t => simp at this
    · simp
  | none =>
    simp only []
    split
    · simp
    · simp

lemma upd_clean (ck mk content v inner rest : Str)
    (hm : fmMatch content = some (inner, rest))
    (hnc : '\n' ∉ ck) (hnm : '\n' ∉ mk) (hnv : '\n' ∉ v)
    (hdc : '$' ∉ ck) (hdm : '$' ∉ mk) (hdv : '$' ∉ v) (hdi : '$' ∉ inner) :
    updateModifiedTime ck mk content v
      = S ("---\n") ++ joinNl (updLines ck mk v (splitNl inner)) ++ S ("\n---") ++ rest := by
  have hLnil : splitNl inner ≠ [] := splitNl_ne_nil inner
  have hLnl : ∀ l ∈ splitNl inner, '\n' ∉ l := fun l hl => mem_splitNl_no_nl inner l hl
  have hLd : ∀ l ∈ splitNl inner, '$' ∉ l :=
    fun l hl hc => hdi (mem_splitNl_subset inner l hl '$' hc)
  have hmknl : '\n' ∉ mk ++ ':' :: ' ' :: v :=
    not_mem_keyline '\n' mk v hnm hnv (by decide) (by decide)
  have hcknl : '\n' ∉ ck ++ ':' :: ' ' :: v :=
    not_mem_keyline '\n' ck v hnc hnv (by decide) (by decide)
  have hmkd : '$' ∉ mk ++ ':' :: ' ' :: v :=
    not_mem_keyline '$' mk v hdm hdv (by decide) (by decide)
  have hckd : '$' ∉ ck ++ ':' :: ' ' :: v :=
    not_mem_keyline '$' ck v hdc hdv (by decide) (by decide)
  have hMnl : ∀ l ∈ updLines ck mk v (splitNl inner), '\n' ∉ l := by
    intro l hl
    rcases mem_updLines ck mk v (splitNl inner) l hl with h' | h' | h'
    · exact hLnl l h'
    · exact h' ▸ hmknl
    · exact h' ▸ hcknl
  have hMd : ∀ l ∈ updLines ck mk v (splitNl inner), '$' ∉ l := by
    intro l hl
    rcases mem_updLines ck mk v (splitNl inner) l hl with h' | h' | h'
    · exact hLd l h'
    · exact h' ▸ hmkd
    · exact h' ▸ hckd
  -- the string built by the source equals the joined line-level result
  have hfm2 : (if keyPresent mk inner
      then jsRegexLineReplace mk ('$' :: '1' :: ' ' :: v) inner
      else inner ++ ('\n' :: (mk ++ (':' :: ' ' :: v)))) = joinNl
        (match findIdxO (fun l => (mk ++ [':']).isPrefixOf l) (splitNl inner) with
         | some j => setIdx (splitNl inner) j (mk ++ ':' :: ' ' :: v)
         | none => splitNl inner ++ [mk ++ ':' :: ' ' :: v]) := by
    cases hf : findIdxO (fun l => (mk ++ [':']).isPrefixOf l) (splitNl inner) with
    | some j =>
      have hkp : keyPresent mk inner = true := by
        unfold keyPresent
        rw [hf]
        rfl
      rw [if_pos hkp]
      unfold jsRegexLineReplace
      simp only []
      rw [hf]
      simp only []
      rw [getSub_dollar1 _ _ _ _ v hdv]
      have : (mk ++ [':']) ++ ' ' :: v = mk ++ ':' :: ' ' :: v := by simp
      rw [this]
    | none =>
      have hkp : keyPresent mk inner = false := by
        unfold keyPresent
        rw [hf]
        rfl
      rw [if_neg (by simp [hkp])]
      rw [joinNl_append (splitNl inner) [mk ++ ':' :: ' ' :: v] hLnil (by simp),
        joinNl_splitNl]
      rfl
  set L1 := (match findIdxO (fun l => (mk ++ [':']).isPrefixOf l) (splitNl inner) with
             | some j => setIdx (splitNl inner) j (mk ++ ':' :: ' ' :: v)
             | none => splitNl inner ++ [mk ++ ':' :: ' ' :: v]) with hL1def
  have hL1mem : ∀ l ∈ L1, l ∈ splitNl inner ∨ l = mk ++ ':' :: ' ' :: v := by
    intro l hl
    rw [hL1def] at hl
    cases hf : findIdxO (fun l => (mk ++ [':']).isPrefixOf l) (splitNl inner) with
    | some j =>
      rw [hf] at hl
      simp only [] at hl
      exact mem_setIdx _ _ _ _ hl
    | none =>
      rw [hf] at hl
      simp only [] at hl
      rcases List.mem_append.mp hl with h' | h'
      · exact Or.inl h'
      · exact Or.inr (List.mem_singleton.mp h')
  have hL1nil : L1 ≠ [] := by
    rw [hL1def]
    cases hf : findIdxO (fun l => (mk ++ [':']).isPrefixOf l) (splitNl inner) with
    | some j =>
      simp only []
      intro he
      have hlen := length_setIdx (splitNl inner) j (mk ++ ':' :: ' ' :: v)
      rw [he] at hlen
      cases hsi : splitNl inner with
      | nil => exact hLnil hsi
      | cons a t => rw [hsi] at hlen; simp at hlen
    | none => simp
  have hL1nl : ∀ l ∈ L1, '\n' ∉ l := by
    intro l hl
    rcases hL1mem l hl with h' | h'
    · exact hLnl l h'
    · exact h' ▸ hmknl
  have hsplitL1 : splitNl (joinNl L1) = L1 := splitNl_joinNl L1 hL1nil hL1nl
  have hkpck : keyPresent ck (joinNl L1)
      = (findIdxO (fun l => (ck ++ [':']).isPrefixOf l) L1).isSome := by
    unfold keyPresent
    rw [hsplitL1]
  have hupd : updLines ck mk v (splitNl inner)
      = if (findIdxO (fun l => (ck ++ [':']).isPrefixOf l) L1).isSome then L1
        else (ck ++ ':' :: ' ' :: v) :: L1 := by
    unfold updLines
    simp only []
  have hM : joinNl (updLines ck mk v (splitNl inner))
      = if (findIdxO (fun l => (ck ++ [':']).isPrefixOf l) L1).isSome then joinNl L1
        else (ck ++ (':' :: ' ' :: v)) ++ ('\n' :: joinNl L1) := by
    rw [hupd]
    by_cases hsome : (findIdxO (fun l => (ck ++ [':']).isPrefixOf l) L1).isSome
    · rw [if_pos hsome, if_pos hsome]
    · rw [if_neg hsome, if_neg hsome, joinNl_cons _ _ hL1nil]
  have hfinal : ∀ fm2 : Str, '$' ∉ fm2 →
      jsReplaceFm content (S ("---\n") ++ fm2 ++ S ("\n---"))
        = S ("---\n") ++ fm2 ++ S ("\n---") ++ rest := by
    intro fm2 hd
    unfold jsReplaceFm
    rw [hm]
    simp only []
    have hrep : '$' ∉ S ("---\n") ++ fm2 ++ S ("\n---") := by
      simp only [List.mem_append, not_or]
      exact ⟨⟨by decide, hd⟩, by decide⟩
    rw [getSub_id _ _ _ _ _ hrep]
  unfold updateModifiedTime
  rw [hm]
  simp only []
  rw [hfm2, hkpck, ← hM]
  exact hfinal _ (char_not_mem_joinNl '$' (by decide) _ hMd)

lemma mem_addLines (ck mk cr mo : Str) (L : List Str) (l : Str)
    (h : l ∈ addLines ck mk cr mo L) :
    l ∈ L ∨ l = ck ++ ':' :: ' ' :: cr ∨ l = mk ++ ':' :: ' ' :: mo := by
  unfold addLines at h
  simp only [] at h
  split at h
  · split at h
    · exact Or.inl h
    · rcases List.mem_append.mp h with h' | h'
      · exact Or.inl h'
      · exact Or.inr (Or.inr (List.mem_singleton.mp h'))
  · split at h
    · rcases List.mem_cons.mp h with rfl | h'
      · exact Or.inr (Or.inl rfl)
      · exact Or.inl h'
    · rcases List.mem_append.mp h with h' | h'
      · rcases List.mem_cons.mp h' with rfl | h''
        · exact Or.inr (Or.inl rfl)
        · exact Or.inl h''
      · exact Or.inr (Or.inr (List.mem_singleton.mp h'))

lemma add_clean (ck mk content cr mo inner rest : Str)
    (hm : fmMatch content = some (inner, rest))
    (hnc : '\n' ∉ ck) (hnm : '\n' ∉ mk) (hncr : '\n' ∉ cr) (hnmo : '\n' ∉ mo)
    (hdc : '$' ∉ ck) (hdm : '$' ∉ mk) (hdcr : '$' ∉ cr) (hdmo : '$' ∉ mo)
    (hdi : '$' ∉ inner) :
    addFrontmatter ck mk content cr mo
      = S ("---\n") ++ joinNl (addLines ck mk cr mo (splitNl inner)) ++ S ("\n---") ++ rest := by
  have hLnil : splitNl inner ≠ [] := splitNl_ne_nil inner
  have hLnl : ∀ l ∈ splitNl inner, '\n' ∉ l := fun l hl => mem_splitNl_no_nl inner l hl
  have hLd : ∀ l ∈ splitNl inner, '$' ∉ l :=
    fun l hl hc => hdi (mem_splitNl_subset inner l hl '$' hc)
  have hcknl : '\n' ∉ ck ++ ':' :: ' ' :: cr :=
    not_mem_keyline '\n' ck cr hnc hncr (by decide) (by decide)
  have hckd : '$' ∉ ck ++ ':' :: ' ' :: cr :=
    not_mem_keyline '$' ck cr hdc hdcr (by decide) (by decide)
  have hMd : ∀ l ∈ addLines ck mk cr mo (splitNl inner), '$' ∉ l := by
    intro l hl
    rcases mem_addLines ck mk cr mo (splitNl inner) l hl with h' | h' | h'
    · exact hLd l h'
    · exact h' ▸ hckd
    · exact h' ▸ not_mem_keyline '$' mk mo hdm hdmo (by decide) (by decide)
  set L1 := (if (findIdxO (fun l => (ck ++ [':']).isPrefixOf l) (splitNl inner)).isSome
      then splitNl inner else (ck ++ ':' :: ' ' :: cr) :: splitNl inner) with hL1def
  have hL1mem : ∀ l ∈ L1, l ∈ splitNl inner ∨ l = ck ++ ':' :: ' ' :: cr := by
    intro l hl
    rw [hL1def] at hl
    split at hl
    · exact Or.inl hl
    · rcases List.mem_cons.mp hl with rfl | h'
      · exact Or.inr rfl
      · exact Or.inl h'
  have hL1nil : L1 ≠ [] := by
    rw [hL1def]
    split
    · exact hLnil
    · simp
  have hL1nl : ∀ l ∈ L1, '\n' ∉ l := by
    intro l hl
    rcases hL1mem l hl with h' | h'
    · exact hLnl l h'
    · exact h' ▸ hcknl
  have hsplitL1 : splitNl (joinNl L1) = L1 := splitNl_joinNl L1 hL1nil hL1nl
  have hfm1 : (if keyPresent ck inner then inner
      else (ck ++ (':' :: ' ' :: cr)) ++ ('\n' :: inner)) = joinNl L1 := by
    rw [hL1def]
    unfold keyPresent
    by_cases hsome : (findIdxO (fun l => (ck ++ [':']).isPrefixOf l) (splitNl inner)).isSome
    · rw [if_pos hsome, if_pos hsome, joinNl_splitNl]
    · rw [if_neg hsome, if_neg hsome, joinNl_cons _ _ hLnil, joinNl_splitNl]
  have hkpmk : keyPresent mk (joinNl L1)
      = (findIdxO (fun l => (mk ++ [':']).isPrefixOf l) L1).isSome := by
    unfold keyPresent
    rw [hsplitL1]
  have haddl : addLines ck mk cr mo (splitNl inner)
      = if (findIdxO (fun l => (mk ++ [':']).isPrefixOf l) L1).isSome then L1
        else L1 ++ [mk ++ ':' :: ' ' :: mo] := by
    unfold addLines
    simp only []
  have hM : joinNl (addLines ck mk cr mo (splitNl inner))
      = if (findIdxO (fun l => (mk ++ [':']).isPrefixOf l) L1).isSome then joinNl L1
        else joinNl L1 ++ ('\n' :: (mk ++ (':' :: ' ' :: mo))) := by
    rw [haddl]
    by_cases hsome : (findIdxO (fun l => (mk ++ [':']).isPrefixOf l) L1).isSome
    · rw [if_pos hsome, if_pos hsome]
    · rw [if_neg hsome, if_neg hsome, joinNl_append L1 _ hL1nil (by simp)]
      rfl
  have hfinal : ∀ fm2 : Str, '$' ∉ fm2 →
      jsReplaceFm content (S ("---\n") ++ fm2 ++ S ("\n---"))
        = S ("---\n") ++ fm2 ++ S ("\n---") ++ rest := by
    intro fm2 hd
    unfold jsReplaceFm
    rw [hm]
    simp only []
    have hrep : '$' ∉ S ("---\n") ++ fm2 ++ S ("\n---") := by
      simp only [List.mem_append, not_or]
      exact ⟨⟨by decide, hd⟩, by decide⟩
    rw [getSub_id _ _ _ _ _ hrep]
  unfold addFrontmatter
  rw [hm]
  simp only []
  rw [hfm1, hkpmk, ← hM]
  exact hfinal _ (char_not_mem_joinNl '$' (by decide) _ hMd)

lemma pfx_keyline_self (k v : Str) : (k ++ [':']).isPrefixOf (k ++ ':' :: ' ' :: v) = true :=
  (isPrefixOf_iff _ _).mpr ⟨' ' :: v, by simp⟩

lemma keyline_eq (k1 k2 v : Str) (h : (k1 ++ [':']).isPrefixOf (k2 ++ ':' :: ' ' :: v) = true)
    (h1 : ':' ∉ k1) (h2 : ':' ∉ k2) : k1 = k2 := by
  obtain ⟨u, hu⟩ := (isPrefixOf_iff _ _).mp h
  induction k1 generalizing k2 with
  | nil =>
    cases k2 with
    | nil => rfl
    | cons c k2' =>
      simp only [List.nil_append, List.singleton_append, List.cons_append,
        List.cons.injEq] at hu
      exact absurd (hu.1.symm ▸ List.mem_cons_self c k2' : (':' : Char) ∈ c :: k2') h2
  | cons c k1' ih =>
    cases k2 with
    | nil =>
      simp only [List.nil_append, List.cons_append, List.cons.injEq] at hu
      exact absurd (hu.1 ▸ List.mem_cons_self c k1' : (':' : Char) ∈ c :: k1') h1
    | cons d k2' =>
      simp only [List.cons_append, List.cons.injEq] at hu
      have hd : d = c := hu.1
      have htl : k2' ++ ':' :: ' ' :: v = (k1' ++ [':']) ++ u := hu.2
      have := ih k2' ((isPrefixOf_iff _ _).mpr ⟨u, htl⟩)
        (fun hm => h1 (List.mem_cons_of_mem c hm))
        (fun hm => h2 (List.mem_cons_of_mem d hm)) htl
      rw [hd, this]

lemma keyline_no_dash (k v : Str) (hk : (S ("-")).isPrefixOf k = false) :
    ¬ ∃ u, k ++ ':' :: ' ' :: v = S ("---") ++ u := by
  rintro ⟨u, hu⟩
  cases k with
  | nil =>
    have : (':' :: ' ' :: v : Str) = '-' :: '-' :: '-' :: u := hu
    simp only [List.cons.injEq] at this
    exact absurd this.1 (by decide)
  | cons c k' =>
    have : (c :: (k' ++ ':' :: ' ' :: v) : Str) = '-' :: '-' :: '-' :: u := hu
    simp only [List.cons.injEq] at this
    have hc : c = '-' := this.1
    rw [isPrefixOf_false_iff] at hk
    exact hk ⟨k', by rw [hc]; rfl⟩

lemma getD_append_left (L L' : List Str) (k : Nat) (d : Str) (h : k < L.length) :
    (L ++ L').getD k d = L.getD k d := by
  induction L generalizing k with
  | nil => simp at h
  | cons l t ih =>
    cases k with
    | zero => rfl
    | succ k' => simpa using ih k' (by simpa using h)

lemma getD_append_len (L : List Str) (x d : Str) : (L ++ [x]).getD L.length d = x := by
  induction L with
  | nil => rfl
  | cons l t ih => simpa using ih

lemma updLines_idem (ck mk v : Str) (L : List Str)
    (hck : ':' ∉ ck) (hmk : ':' ∉ mk) (hne : ck ≠ mk) :
    updLines ck mk v (updLines ck mk v L) = updLines ck mk v L := by
  have hpmck : ((mk ++ [':']).isPrefixOf (ck ++ ':' :: ' ' :: v)) = false := by
    cases hb : ((mk ++ [':']).isPrefixOf (ck ++ ':' :: ' ' :: v)) with
    | true => exact absurd (keyline_eq mk ck v hb hmk hck) (Ne.symm hne)
    | false => rfl
  have hpcmk : ((ck ++ [':']).isPrefixOf (mk ++ ':' :: ' ' :: v)) = false := by
    cases hb : ((ck ++ [':']).isPrefixOf (mk ++ ':' :: ' ' :: v)) with
    | true => exact absurd (keyline_eq ck mk v hb hck hmk) hne
    | false => rfl
  -- the first pass yields a list whose first modified-key line is exactly the
  -- rewritten one; name the two possible inner lists
  have key : ∃ j1, findIdxO (fun l => (mk ++ [':']).isPrefixOf l)
        (updLines ck mk v L) = some j1
      ∧ (updLines ck mk v L).getD j1 [] = mk ++ ':' :: ' ' :: v
      ∧ (findIdxO (fun l => (ck ++ [':']).isPrefixOf l) (updLines ck mk v L)).isSome = true := by
    unfold updLines
    simp only []
    cases hfm : findIdxO (fun l => (mk ++ [':']).isPrefixOf l) L with
    | some j =>
      obtain ⟨hj1, hj2, hj3⟩ := findIdxO_some_spec _ _ _ hfm
      have hfm1 : findIdxO (fun l => (mk ++ [':']).isPrefixOf l)
          (setIdx L j (mk ++ ':' :: ' ' :: v)) = some j := by
        apply findIdxO_at_min
        · rw [length_setIdx]; exact hj1
        · rw [getD_setIdx_self L j _ _ hj1]
          exact pfx_keyline_self mk v
        · intro k hk
          rw [getD_setIdx_ne L j k _ _ (by omega)]
          exact hj3 k hk
      have hget1 : (setIdx L j (mk ++ ':' :: ' ' :: v)).getD j [] = mk ++ ':' :: ' ' :: v :=
        getD_setIdx_self L j _ _ hj1
      split
      · rename_i hsome
        exact ⟨j, hfm1, hget1, hsome⟩
      · rename_i hnone
        refine ⟨j + 1, ?_, ?_, ?_⟩
        · simp only [findIdxO, hpmck, if_neg]
          rw [hfm1]
          rfl
        · simpa using hget1
        · simp only [findIdxO]
          rw [if_pos (pfx_keyline_self ck v)]
          rfl
    | none =>
      have hall := (findIdxO_none_iff _ _).mp hfm
      have hfm1 : findIdxO (fun l => (mk ++ [':']).isPrefixOf l)
          (L ++ [mk ++ ':' :: ' ' :: v]) = some L.length := by
        apply findIdxO_at_min
        · simp
        · rw [getD_append_len]
          exact pfx_keyline_self mk v
        · intro k hk
          rw [getD_append_left _ _ _ _ hk]
          exact hall _ (getD_mem_of_lt L k [] hk)
      have hget1 : (L ++ [mk ++ ':' :: ' ' :: v]).getD L.length [] = mk ++ ':' :: ' ' :: v :=
        getD_append_len L _ []
      split
      · rename_i hsome
        exact ⟨L.length, hfm1, hget1, hsome⟩
      · rename_i hnone
        refine ⟨L.length + 1, ?_, ?_, ?_⟩
        · simp only [findIdxO, hpmck, if_neg]
          rw [hfm1]
          rfl
        · simpa using hget1
        · simp only [findIdxO]
          rw [if_pos (pfx_keyline_self ck v)]
          rfl
  obtain ⟨j1, hfind, hget, hcksome⟩ := key
  set M := updLines ck mk v L with hMdef
  unfold updLines
  simp only []
  rw [hfind]
  simp only []
  rw [setIdx_eq_self _ _ _ hget, if_pos hcksome]

lemma digitChar_ne_dollar (n : Nat) : digitChar n ≠ '$' := by
  unfold digitChar
  split_ifs <;> decide

lemma natStrAux_not_dollar (f n : Nat) : '$' ∉ natStrAux f n := by
  induction f generalizing n with
  | zero => simp [natStrAux]
  | succ f ih =>
    simp only [natStrAux]
    split_ifs with h
    · intro hm
      exact digitChar_ne_dollar n (List.mem_singleton.mp hm).symm
    · intro hm
      rcases List.mem_append.mp hm with hm | hm
      · exact ih (n / 10) hm
      · exact digitChar_ne_dollar (n % 10) (List.mem_singleton.mp hm).symm

lemma natStr_not_dollar (n : Nat) : '$' ∉ natStr n := natStrAux_not_dollar (n + 1) n

lemma pad2_not_dollar (s : Str) (h : '$' ∉ s) : '$' ∉ pad2 s := by
  unfold pad2
  intro hm
  rcases List.mem_append.mp hm with hm | hm
  · have := List.eq_of_mem_replicate hm
    exact absurd this (by decide)
  · exact h hm

lemma natStrAux_lt10 (f n : Nat) (h : n < 10) : natStrAux (f + 1) n = [digitChar n] := by
  simp [natStrAux, h]

lemma natStrAux_ge10 (f n : Nat) (h : 10 ≤ n) :
    natStrAux (f + 1) n = natStrAux f (n / 10) ++ [digitChar (n % 10)] := by
  simp only [natStrAux]
  rw [if_neg (by omega)]

lemma natStr_length4 (n : Nat) (h1 : 1000 ≤ n) (h2 : n ≤ 9999) : (natStr n).length = 4 := by
  unfold natStr
  obtain ⟨f, hf⟩ : ∃ f, n + 1 = f + 4 := ⟨n - 3, by omega⟩
  rw [hf, show f + 4 = (f + 3) + 1 from rfl,
    natStrAux_ge10 (f + 3) n (by omega),
    show f + 3 = (f + 2) + 1 from rfl,
    natStrAux_ge10 (f + 2) (n / 10) (by omega),
    show f + 2 = (f + 1) + 1 from rfl,
    natStrAux_ge10 (f + 1) (n / 10 / 10) (by omega),
    natStrAux_lt10 f (n / 10 / 10 / 10) (by omega)]
  simp

lemma pad4_of_length4 (s : Str) (h : s.length = 4) : pad4 s = s := by
  unfold pad4
  rw [h]
  simp

lemma jsStringReplaceFirst_eq_plain (pat repl s : Str) (h : '$' ∉ repl) :
    jsStringReplaceFirst pat repl s = plainReplaceFirst pat repl s := by
  unfold jsStringReplaceFirst plainReplaceFirst
  cases hf : firstOcc pat s with
  | none => rfl
  | some i =>
    simp only []
    rw [getSub_id _ _ _ _ _ h]

lemma formatDate_eq_spec (fmt : Str) (d : JsDate) (h1 : 1000 ≤ d.year) (h2 : d.year ≤ 9999) :
    formatDate fmt d = formatDateSpec fmt d := by
  unfold formatDate formatDateSpec
  rw [pad4_of_length4 _ (natStr_length4 d.year h1 h2)]
  rw [jsStringReplaceFirst_eq_plain _ _ _ (natStr_not_dollar d.year),
    jsStringReplaceFirst_eq_plain _ _ _ (pad2_not_dollar _ (natStr_not_dollar d.month)),
    jsStringReplaceFirst_eq_plain _ _ _ (pad2_not_dollar _ (natStr_not_dollar d.day)),
    jsStringReplaceFirst_eq_plain _ _ _ (pad2_not_dollar _ (natStr_not_dollar d.hour)),
    jsStringReplaceFirst_eq_plain _ _ _ (pad2_not_dollar _ (natStr_not_dollar d.minute)),
    jsStringReplaceFirst_eq_plain _ _ _ (pad2_not_dollar _ (natStr_not_dollar d.second))]

lemma matchHere_iff (r : RE) (s : Str) :
    matchHere r s = true ↔ ∃ pre suf, s = pre ++ suf ∧ rmatch r pre = true := by
  induction s generalizing r with
  | nil =>
    simp only [matchHere]
    constructor
    · intro h
      exact ⟨[], [], rfl, h⟩
    · rintro ⟨pre, suf, heq, hm⟩
      obtain ⟨rfl, rfl⟩ := List.append_eq_nil.mp heq.symm
      exact hm
  | cons c t ih =>
    simp only [matchHere, Bool.or_eq_true]
    constructor
    · rintro (h | h)
      · exact ⟨[], c :: t, rfl, h⟩
      · obtain ⟨pre, suf, heq, hm⟩ := (ih (deriv r c)).mp h
        exact ⟨c :: pre, suf, by rw [heq]; rfl, hm⟩
    · rintro ⟨pre, suf, heq, hm⟩
      cases pre with
      | nil =>
        exact Or.inl hm
      | cons p pre' =>
        simp only [List.cons_append, List.cons.injEq] at heq
        obtain ⟨rfl, ht⟩ := heq
        exact Or.inr ((ih (deriv r c)).mpr ⟨pre', suf, ht, hm⟩)

lemma rtest_iff (r : RE) (s : Str) :
    rtest r s = true ↔ ∃ pre mid suf, s = pre ++ mid ++ suf ∧ rmatch r mid = true := by
  induction s with
  | nil =>
    simp only [rtest]
    constructor
    · intro h
      exact ⟨[], [], [], rfl, h⟩
    · rintro ⟨pre, mid, suf, heq, hm⟩
      obtain ⟨h1, rfl⟩ := List.append_eq_nil.mp heq.symm
      obtain ⟨rfl, rfl⟩ := List.append_eq_nil.mp h1
      exact hm
  | cons c t ih =>
    simp only [rtest, Bool.or_eq_true]
    constructor
    · rintro (h | h)
      · obtain ⟨mid, suf, heq, hm⟩ := (matchHere_iff r (c :: t)).mp h
        exact ⟨[], mid, suf, by simpa using heq, hm⟩
      · obtain ⟨pre, mid, suf, heq, hm⟩ := ih.mp h
        exact ⟨c :: pre, mid, suf, by rw [heq]; rfl, hm⟩
    · rintro ⟨pre, mid, suf, heq, hm⟩
      cases pre with
      | nil =>
        refine Or.inl ((matchHere_iff r (c :: t)).mpr ⟨mid, suf, ?_, hm⟩)
        simpa using heq
      | cons p pre' =>
        simp only [List.cons_append, List.cons.injEq] at heq
        obtain ⟨rfl, ht⟩ := heq
        exact Or.inr (ih.mpr ⟨pre', mid, suf, ht, hm⟩)

lemma keyPresent_iff (key fm : Str) :
    keyPresent key fm = true ↔ ∃ l ∈ splitNl fm, ∃ u, l = (key ++ [':']) ++ u := by
  unfold keyPresent
  rw [findIdxO_isSome_iff]
  constructor
  · rintro ⟨l, hl, hp⟩
    exact ⟨l, hl, (isPrefixOf_iff _ _).mp hp⟩
  · rintro ⟨l, hl, hu⟩
    exact ⟨l, hl, (isPrefixOf_iff _ _).mpr hu⟩

/-- Claim C1 (code bug): the invariant that `addFrontmatter` leaves unrelated
frontmatter lines unchanged fails.  On `---\nfoo: $&\n---\nb` with keys
`created`/`modified` and value `X`, the `$&` in the unrelated line is
interpreted by the string replacement and expands to the whole matched
block, so the line `foo: $&` is rewritten; the output is not the
invariant-respecting document. -/
theorem claim_C1 :
    addFrontmatter (S ("created")) (S ("modified")) (S ("---\nfoo: $&\n---\nb"))
        (S ("X")) (S ("X"))
      = S ("---\ncreated: X\nfoo: ---\nfoo: $&\n---\nmodified: X\n---\nb")
    ∧ addFrontmatter (S ("created")) (S ("modified")) (S ("---\nfoo: $&\n---\nb"))
        (S ("X")) (S ("X"))
      ≠ S ("---\ncreated: X\nfoo: $&\nmodified: X\n---\nb") :=
  ⟨by decide, by decide⟩

/-- Claim C2: on a document with no frontmatter block, `addFrontmatter`
with the same value for both keys prepends a block whose four lines are
`---`, the created line, the modified line, `---`, followed by the original
body unchanged. -/
theorem claim_C2 : ∀ ck mk content v : Str,
    fmMatch content = none → '\n' ∉ ck → '\n' ∉ mk → '\n' ∉ v →
    addFrontmatter ck mk content v v
      = S ("---\n") ++ (ck ++ (':' :: ' ' :: v)) ++ ('\n' :: (mk ++ (':' :: ' ' :: v)))
        ++ S ("\n---\n") ++ content
    ∧ splitNl (addFrontmatter ck mk content v v)
      = S ("---") :: (ck ++ ':' :: ' ' :: v) :: (mk ++ ':' :: ' ' :: v) :: S ("---")
        :: splitNl content := by
  intro ck mk content v hm hnc hnm hnv
  have h1 : addFrontmatter ck mk content v v
      = S ("---\n") ++ (ck ++ (':' :: ' ' :: v)) ++ ('\n' :: (mk ++ (':' :: ' ' :: v)))
        ++ S ("\n---\n") ++ content := by
    unfold addFrontmatter
    rw [hm]
  refine ⟨h1, ?_⟩
  rw [h1]
  have harr : S ("---\n") ++ (ck ++ (':' :: ' ' :: v)) ++ ('\n' :: (mk ++ (':' :: ' ' :: v)))
        ++ S ("\n---\n") ++ content
      = S ("---") ++ '\n' :: ((ck ++ ':' :: ' ' :: v)
          ++ '\n' :: ((mk ++ ':' :: ' ' :: v) ++ '\n' :: (S ("---") ++ '\n' :: content))) := by
    rw [show S ("---\n") = S ("---") ++ ['\n'] from rfl,
      show S ("\n---\n") = ['\n'] ++ (S ("---") ++ ['\n']) from rfl]
    simp [List.append_assoc]
  rw [harr, splitNl_append_nl, splitNl_append_nl, splitNl_append_nl, splitNl_append_nl]
  simp only [splitNl_no_nl (S ("---")) (by decide),
    splitNl_no_nl (ck ++ ':' :: ' ' :: v)
      (not_mem_keyline '\n' ck v hnc hnv (by decide) (by decide)),
    splitNl_no_nl (mk ++ ':' :: ' ' :: v)
      (not_mem_keyline '\n' mk v hnm hnv (by decide) (by decide))]
  simp

/-- Concrete instance of claim C2. -/
theorem claim_C2_witness :
    fmMatch (S ("hello")) = none
    ∧ addFrontmatter (S ("created")) (S ("modified")) (S ("hello")) (S ("X")) (S ("X"))
      = S ("---\ncreated: X\nmodified: X\n---\nhello") := by
  refine ⟨by decide, ?_⟩
  have h := (claim_C2 (S ("created")) (S ("modified")) (S ("hello")) (S ("X"))
    (by decide) (by decide) (by decide) (by decide)).1
  rw [h]
  decide

/-- Claim C3 as stated is false: on a document whose frontmatter contains
the replacement pattern `$&`, `addFrontmatter` does not simply prepend the
created line and append the modified line around the existing lines. -/
theorem claim_C3_cex :
    addFrontmatter (S ("created")) (S ("modified")) (S ("---\nfoo: $&\n---\nb"))
        (S ("X")) (S ("X"))
      ≠ S ("---\ncreated: X\nfoo: $&\nmodified: X\n---\nb") := by decide

/-- Claim C3 (amended): for a document with a frontmatter block containing
no dollar character and no line terminator other than the newline, with
keys free of newlines, dollars and regex metacharacters (so the source's
`new RegExp("^" + key + ":", "m")` is a literal line-prefix test) and
values free of newlines, dollars, and line terminators other than the
newline, `addFrontmatter` prepends the created line only when no
frontmatter line starts with the created key and appends the modified line
only when no line starts with the modified key, preserving everything else
(`addFrontmatterSpec`); on that domain `keyPresent` is exactly the
line-anchored prefix test; and the concrete example of the specification
holds. -/
theorem claim_C3 :
    (∀ ck mk content cr mo inner rest : Str,
      fmMatch content = some (inner, rest) →
      '\n' ∉ ck → '\n' ∉ mk → '\n' ∉ cr → '\n' ∉ mo →
      '$' ∉ ck → '$' ∉ mk → '$' ∉ cr → '$' ∉ mo → '$' ∉ inner →
      plainKey ck = true → plainKey mk = true →
      nlOnly ck = true → nlOnly mk = true → nlOnly cr = true → nlOnly mo = true →
      nlOnly inner = true →
      addFrontmatter ck mk content cr mo = addFrontmatterSpec ck mk content cr mo)
    ∧ (∀ key fm : Str, plainKey key = true → nlOnly key = true → nlOnly fm = true →
        (keyPresent key fm = true
          ↔ ∃ l ∈ splitNl fm, ∃ u, l = (key ++ [':']) ++ u))
    ∧ addFrontmatter (S ("created")) (S ("modified")) (S ("---\nfoo: bar\n---\nbody"))
        (S ("X")) (S ("X"))
      = S ("---\ncreated: X\nfoo: bar\nmodified: X\n---\nbody") := by
  refine ⟨?_, fun key fm _ _ _ => keyPresent_iff key fm, by decide⟩
  intro ck mk content cr mo inner rest hm h1 h2 h3 h4 h5 h6 h7 h8 h9 _ _ _ _ _ _ _
  rw [add_clean ck mk content cr mo inner rest hm h1 h2 h3 h4 h5 h6 h7 h8 h9]
  unfold addFrontmatterSpec
  rw [hm]

/-- Concrete instance of claim C3 at the specification's example. -/
theorem claim_C3_witness :
    fmMatch (S ("---\nfoo: bar\n---\nbody")) = some (S ("foo: bar"), S ("\nbody"))
    ∧ addFrontmatter (S ("created")) (S ("modified")) (S ("---\nfoo: bar\n---\nbody"))
        (S ("X")) (S ("X"))
      = addFrontmatterSpec (S ("created")) (S ("modified")) (S ("---\nfoo: bar\n---\nbody"))
        (S ("X")) (S ("X")) :=
  ⟨by decide, claim_C3.1 (S ("created")) (S ("modified")) (S ("---\nfoo: bar\n---\nbody"))
    (S ("X")) (S ("X")) (S ("foo: bar")) (S ("\nbody")) (by decide) (by decide) (by decide)
    (by decide) (by decide) (by decide) (by decide) (by decide) (by decide) (by decide)
    (by decide) (by decide) (by decide) (by decide) (by decide) (by decide) (by decide)⟩

/-- Claim C4: `formatDate` replaces the first occurrence of each
placeholder in priority order yyyy, MM, dd, HH, mm, ss with the zero-padded
component (`formatDateSpec`, for four-digit years), and the two examples of
the specification hold. -/
theorem claim_C4 :
    (∀ fmt : Str, ∀ d : JsDate, 1000 ≤ d.year → d.year ≤ 9999 →
      formatDate fmt d = formatDateSpec fmt d)
    ∧ formatDate (S ("yyyy-MM-ddTHH:mm:ss")) ⟨2024, 12, 29, 14, 30, 52⟩
      = S ("2024-12-29T14:30:52")
    ∧ formatDate (S ("yyyyMMddHHmmss")) ⟨2024, 12, 29, 14, 30, 52⟩
      = S ("20241229143052") :=
  ⟨fun fmt d h1 h2 => formatDate_eq_spec fmt d h1 h2, by decide, by decide⟩

/-- Concrete instance of claim C4. -/
theorem claim_C4_witness :
    1000 ≤ (⟨2024, 12, 29, 14, 30, 52⟩ : JsDate).year
    ∧ (⟨2024, 12, 29, 14, 30, 52⟩ : JsDate).year ≤ 9999
    ∧ formatDate (S ("yyyyMMddHHmmss")) ⟨2024, 12, 29, 14, 30, 52⟩
      = formatDateSpec (S ("yyyyMMddHHmmss")) ⟨2024, 12, 29, 14, 30, 52⟩ :=
  ⟨by decide, by decide,
    claim_C4.1 (S ("yyyyMMddHHmmss")) ⟨2024, 12, 29, 14, 30, 52⟩ (by decide) (by decide)⟩

/-- Claim C5 as stated is false: the document `---\nfoo: bar\n---x` has no
later line that is exactly `---`, yet the editor recognizes a frontmatter
block (the line `---x` closes it) and rewrites the document. -/
theorem claim_C5_cex :
    (fmMatch (S ("---\nfoo: bar\n---x"))).isSome = true
    ∧ S ("---") ∉ (splitNl (S ("---\nfoo: bar\n---x"))).tail
    ∧ updateModifiedTime (S ("created")) (S ("modified")) (S ("---\nfoo: bar\n---x"))
        (S ("X"))
      ≠ S ("---\nfoo: bar\n---x") :=
  ⟨by decide, by decide, by decide⟩

/-- Claim C5 (amended): the editor operations recognize a frontmatter block
exactly when the document starts with the line `---` and some later
position carries a newline followed by `---`, that is, a later line merely
beginning with `---`; trailing characters on the closing line are
allowed. -/
theorem claim_C5 : ∀ content : Str,
    (fmMatch content).isSome = true
      ↔ ∃ a b, content = S ("---\n") ++ a ++ S ("\n---") ++ b :=
  fun content => fmMatch_isSome_iff content

/-- Concrete instance of claim C5. -/
theorem claim_C5_witness : (fmMatch (S ("---\na: b\n---\nc"))).isSome = true :=
  (claim_C5 (S ("---\na: b\n---\nc"))).mpr ⟨S ("a: b"), S ("\nc"), by decide⟩

/-- Claim C6 as stated is false: on a document whose frontmatter contains
the replacement pattern `$&`, the modified line is not replaced in place;
the expansion duplicates the matched block instead. -/
theorem claim_C6_cex :
    updateModifiedTime (S ("created")) (S ("modified"))
        (S ("---\nfoo: $&\nmodified: old\n---\nb")) (S ("X"))
      ≠ S ("---\ncreated: X\nfoo: $&\nmodified: X\n---\nb") := by decide

/-- Claim C6 (amended): `updateModifiedTime` is the identity on documents
without a frontmatter block; on documents whose frontmatter contains no
dollar character and no line terminator other than the newline, with keys
free of newlines, dollars and regex metacharacters (so the source's
key regexes are literal line-anchored tests) and a value free of newlines,
dollars, and line terminators other than the newline, it replaces the
first modified-key line in place if present, appends it otherwise, and
injects a created-key line with the same value when no line carries the
created key, preserving everything else (`updateModifiedTimeSpec`). -/
theorem claim_C6 :
    (∀ ck mk content v : Str, fmMatch content = none →
      updateModifiedTime ck mk content v = content)
    ∧ (∀ ck mk content v inner rest : Str,
      fmMatch content = some (inner, rest) →
      '\n' ∉ ck → '\n' ∉ mk → '\n' ∉ v →
      '$' ∉ ck → '$' ∉ mk → '$' ∉ v → '$' ∉ inner →
      plainKey ck = true → plainKey mk = true →
      nlOnly ck = true → nlOnly mk = true → nlOnly v = true → nlOnly inner = true →
      updateModifiedTime ck mk content v = updateModifiedTimeSpec ck mk content v) := by
  constructor
  · intro ck mk content v hm
    unfold updateModifiedTime
    rw [hm]
  · intro ck mk content v inner rest hm h1 h2 h3 h4 h5 h6 h7 _ _ _ _ _ _
    rw [upd_clean ck mk content v inner rest hm h1 h2 h3 h4 h5 h6 h7]
    unfold updateModifiedTimeSpec
    rw [hm]

/-- Concrete instances of claim C6: the no-op case and the rewrite case. -/
theorem claim_C6_witness :
    updateModifiedTime (S ("created")) (S ("modified")) (S ("plain body")) (S ("X"))
      = S ("plain body")
    ∧ updateModifiedTime (S ("created")) (S ("modified")) (S ("---\ntitle: t\n---\nbody"))
        (S ("X"))
      = updateModifiedTimeSpec (S ("created")) (S ("modified"))
        (S ("---\ntitle: t\n---\nbody")) (S ("X")) :=
  ⟨claim_C6.1 (S ("created")) (S ("modified")) (S ("plain body")) (S ("X")) (by decide),
   claim_C6.2 (S ("created")) (S ("modified")) (S ("---\ntitle: t\n---\nbody")) (S ("X"))
     (S ("title: t")) (S ("\nbody")) (by decide) (by decide) (by decide) (by decide)
     (by decide) (by decide) (by decide) (by decide) (by decide) (by decide) (by decide)
     (by decide) (by decide) (by decide)⟩

/-- Claim C7 as stated is false: `updateModifiedTime` is not idempotent.
On `---\n---x\nfoo\n---\nbody` the injected created line puts a newline in
front of the inner line `---x`, so the second run matches a shorter
frontmatter block and rewrites the document again. -/
theorem claim_C7_cex :
    updateModifiedTime (S ("created")) (S ("modified"))
        (updateModifiedTime (S ("created")) (S ("modified"))
          (S ("---\n---x\nfoo\n---\nbody")) (S ("X"))) (S ("X"))
      ≠ updateModifiedTime (S ("created")) (S ("modified"))
          (S ("---\n---x\nfoo\n---\nbody")) (S ("X")) := by decide

/-- Claim C7 (amended): `updateModifiedTime` is idempotent for well-formed
distinct keys (no newline, dollar, colon or regex metacharacter, no line
terminator other than the newline, not beginning with a dash — so the
source's key regexes are literal line-anchored tests) and values without
newlines, dollars, or line terminators other than the newline, on
documents whose frontmatter block, if any, contains no dollar character
and no line terminator other than the newline, and whose first inner line
does not begin with `---`. -/
theorem claim_C7 : ∀ ck mk content v : Str,
    '\n' ∉ ck → '$' ∉ ck → ':' ∉ ck → (S ("-")).isPrefixOf ck = false →
    '\n' ∉ mk → '$' ∉ mk → ':' ∉ mk → (S ("-")).isPrefixOf mk = false →
    ck ≠ mk → '\n' ∉ v → '$' ∉ v →
    plainKey ck = true → plainKey mk = true →
    nlOnly ck = true → nlOnly mk = true → nlOnly v = true →
    (∀ inner rest, fmMatch content = some (inner, rest) →
      '$' ∉ inner ∧ nlOnly inner = true
        ∧ (S ("---")).isPrefixOf ((splitNl inner).headD []) = false) →
    updateModifiedTime ck mk (updateModifiedTime ck mk content v) v
      = updateModifiedTime ck mk content v := by
  intro ck mk content v hnc hdc hcc hdashc hnm hdm hcm hdashm hne hnv hdv _ _ _ _ _ hfm
  cases hm : fmMatch content with
  | none =>
    have h1 : updateModifiedTime ck mk content v = content := by
      unfold updateModifiedTime
      rw [hm]
    rw [h1]
    exact h1
  | some p =>
    obtain ⟨inner, rest⟩ := p
    obtain ⟨hdi, _, hhead⟩ := hfm inner rest hm
    have hnoocc := (fmMatch_some_decomp content inner rest hm).2
    have htails := tail_lines_of_noOcc inner hnoocc
    have halllines : ∀ l ∈ splitNl inner, ¬ ∃ u, l = S ("---") ++ u := by
      intro l hl
      obtain ⟨h0, t0, hh0⟩ : ∃ h0 t0, splitNl inner = h0 :: t0 := by
        cases he : splitNl inner with
        | nil => exact absurd he (splitNl_ne_nil _)
        | cons h0 t0 => exact ⟨h0, t0, rfl⟩
      rw [hh0] at hl
      rcases List.mem_cons.mp hl with rfl | hl
      · intro hu
        have hp : (S ("---")).isPrefixOf ((splitNl inner).headD []) = true := by
          rw [hh0]
          exact (isPrefixOf_iff _ _).mpr (by simpa using hu)

        rw [hhead] at hp
        cases hp
      · exact htails l (by rw [hh0]; exact hl)
    set M := updLines ck mk v (splitNl inner) with hMdef
    have hMmem := mem_updLines ck mk v (splitNl inner)
    have hMnl : ∀ l ∈ M, '\n' ∉ l := by
      intro l hl
      rcases hMmem l hl with h' | h' | h'
      · exact mem_splitNl_no_nl inner l h'
      · exact h' ▸ not_mem_keyline '\n' mk v hnm hnv (by decide) (by decide)
      · exact h' ▸ not_mem_keyline '\n' ck v hnc hnv (by decide) (by decide)
    have hMd : ∀ l ∈ M, '$' ∉ l := by
      intro l hl
      rcases hMmem l hl with h' | h' | h'
      · exact fun hc => hdi (mem_splitNl_subset inner l h' '$' hc)
      · exact h' ▸ not_mem_keyline '$' mk v hdm hdv (by decide) (by decide)
      · exact h' ▸ not_mem_keyline '$' ck v hdc hdv (by decide) (by decide)
    have hMdash : ∀ l ∈ M, ¬ ∃ u, l = S ("---") ++ u := by
      intro l hl
      rcases hMmem l hl with h' | h' | h'
      · exact halllines l h'
      · exact h' ▸ keyline_no_dash mk v hdashm
      · exact h' ▸ keyline_no_dash ck v hdashc
    have hMnil : M ≠ [] := updLines_ne_nil ck mk v (splitNl inner) (splitNl_ne_nil inner)
    have hsplitM : splitNl (joinNl M) = M := splitNl_joinNl M hMnil hMnl
    have hJd : '$' ∉ joinNl M := char_not_mem_joinNl '$' (by decide) M hMd
    have hO : updateModifiedTime ck mk content v
        = S ("---\n") ++ joinNl M ++ S ("\n---") ++ rest :=
      upd_clean ck mk content v inner rest hm hnc hnm hnv hdc hdm hdv hdi
    have hnoM : noOcc (S ("\n---")) (joinNl M) := by
      apply noOcc_of_tail_lines
      intro l hl
      rw [hsplitM] at hl
      exact hMdash l (List.mem_of_mem_tail hl)
    have hfmO : fmMatch (S ("---\n") ++ joinNl M ++ S ("\n---") ++ rest)
        = some (joinNl M, rest) := fmMatch_build (joinNl M) rest hnoM
    rw [hO]
    rw [upd_clean ck mk (S ("---\n") ++ joinNl M ++ S ("\n---") ++ rest) v (joinNl M) rest
      hfmO hnc hnm hnv hdc hdm hdv hJd]
    rw [hsplitM, hMdef, updLines_idem ck mk v (splitNl inner) hcc hcm hne]

/-- Concrete instance of claim C7. -/
theorem claim_C7_witness :
    updateModifiedTime (S ("created")) (S ("modified"))
        (updateModifiedTime (S ("created")) (S ("modified"))
          (S ("---\ntitle: t\n---\nbody")) (S ("X"))) (S ("X"))
      = updateModifiedTime (S ("created")) (S ("modified"))
          (S ("---\ntitle: t\n---\nbody")) (S ("X")) :=
  claim_C7 (S ("created")) (S ("modified")) (S ("---\ntitle: t\n---\nbody")) (S ("X"))
    (by decide) (by decide) (by decide) (by decide) (by decide) (by decide) (by decide)
    (by decide) (by decide) (by decide) (by decide) (by decide) (by decide) (by decide)
    (by decide) (by decide)
    (by
      intro inner rest h
      rw [show fmMatch (S ("---\ntitle: t\n---\nbody"))
          = some (S ("title: t"), S ("\nbody")) from by decide] at h
      simp only [Option.some.injEq, Prod.mk.injEq] at h
      obtain ⟨h1, h2⟩ := h
      subst h1
      exact ⟨by decide, by decide, by decide⟩)

/-- Claim C8: `shouldIgnoreFile` holds exactly when some pattern of the
list, compiled as a regular expression, matches somewhere inside the path,
and the two examples of the specification hold. -/
theorem claim_C8 :
    (∀ patterns : List Str, ∀ path : Str,
      shouldIgnoreFile patterns path = true
        ↔ ∃ p ∈ patterns, ∃ pre mid suf, path = pre ++ mid ++ suf
            ∧ rmatch (compileRe p) mid = true)
    ∧ shouldIgnoreFile [S ("templates/.*")] (S ("templates/foo.md")) = true
    ∧ shouldIgnoreFile [S ("templates/.*")] (S ("notes/foo.md")) = false := by
  refine ⟨?_, by decide, by decide⟩
  intro patterns path
  unfold shouldIgnoreFile
  rw [List.any_eq_true]
  constructor
  · rintro ⟨p, hp, ht⟩
    obtain ⟨pre, mid, suf, heq, hmm⟩ := (rtest_iff _ _).mp ht
    exact ⟨p, hp, pre, mid, suf, heq, hmm⟩
  · rintro ⟨p, hp, pre, mid, suf, heq, hmm⟩
    exact ⟨p, hp, (rtest_iff _ _).mpr ⟨pre, mid, suf, heq, hmm⟩⟩

/-- Concrete instance of claim C8. -/
theorem claim_C8_witness :
    shouldIgnoreFile [S ("templates/.*")] (S ("templates/foo.md")) = true :=
  (claim_C8.1 [S ("templates/.*")] (S ("templates/foo.md"))).mpr
    ⟨S ("templates/.*"), by simp, [], S ("templates/foo.md"), [], by decide, by decide⟩

/-- Claim C9: the create and modify handlers issue a write to storage only
when the transformed content differs from the content read; when the editor
operation returns the input unchanged, no write occurs. -/
theorem claim_C9 : ∀ ck mk : Str, ∀ patterns : List Str, ∀ up : Bool,
    ∀ path content now : Str, ∀ th : Bool,
    (addFrontmatter ck mk content now now = content →
      (handleFileCreate ck mk patterns up path content now th).write = none)
    ∧ (updateModifiedTime ck mk content now = content →
      (handleFileModify ck mk patterns up path content now th).write = none)
    ∧ (∀ w, (handleFileCreate ck mk patterns up path content now th).write = some w →
        w ≠ content)
    ∧ (∀ w, (handleFileModify ck mk patterns up path content now th).write = some w →
        w ≠ content) := by
  intro ck mk patterns up path content now th
  refine ⟨?_, ?_, ?_, ?_⟩
  · intro h
    unfold handleFileCreate
    simp only []
    split_ifs with hg he hth <;> first | rfl | exact absurd h he
  · intro h
    unfold handleFileModify
    simp only []
    split_ifs with hg he hth <;> first | rfl | exact absurd h he
  · intro w
    unfold handleFileCreate
    simp only []
    split_ifs with hg he hth <;> intro hw <;> cases hw <;> exact he
  · intro w
    unfold handleFileModify
    simp only []
    split_ifs with hg he hth <;> intro hw <;> cases hw <;> exact he

/-- Concrete instance of claim C9: a document already stamped with the
value to be written produces no write. -/
theorem claim_C9_witness :
    addFrontmatter (S ("created")) (S ("modified"))
        (S ("---\ncreated: X\nmodified: X\n---\nb")) (S ("X")) (S ("X"))
      = S ("---\ncreated: X\nmodified: X\n---\nb")
    ∧ (handleFileCreate (S ("created")) (S ("modified")) [] false (S ("a.md"))
        (S ("---\ncreated: X\nmodified: X\n---\nb")) (S ("X")) false).write = none :=
  ⟨by decide,
   (claim_C9 (S ("created")) (S ("modified")) [] false (S ("a.md"))
     (S ("---\ncreated: X\nmodified: X\n---\nb")) (S ("X")) false).1 (by decide)⟩

/-- Claim C10: if the storage write inside a handler throws, the
process-wide `isUpdating` flag is left set, and every subsequent create or
modify event is a no-op (no write, flag still set). -/
theorem claim_C10 : ∀ ck mk : Str, ∀ patterns : List Str, ∀ path content now : Str,
    ∀ ck2 mk2 : Str, ∀ patterns2 : List Str, ∀ path2 content2 now2 : Str, ∀ th2 : Bool,
    ((handleFileCreate ck mk patterns false path content now true).threw = true →
      (handleFileCreate ck mk patterns false path content now true).isUpdatingAfter = true
      ∧ (handleFileCreate ck2 mk2 patterns2 true path2 content2 now2 th2).write = none
      ∧ (handleFileCreate ck2 mk2 patterns2 true path2 content2 now2 th2).isUpdatingAfter = true
      ∧ (handleFileModify ck2 mk2 patterns2 true path2 content2 now2 th2).write = none
      ∧ (handleFileModify ck2 mk2 patterns2 true path2 content2 now2 th2).isUpdatingAfter = true)
    ∧ ((handleFileModify ck mk patterns false path content now true).threw = true →
      (handleFileModify ck mk patterns false path content now true).isUpdatingAfter = true
      ∧ (handleFileCreate ck2 mk2 patterns2 true path2 content2 now2 th2).write = none
      ∧ (handleFileCreate ck2 mk2 patterns2 true path2 content2 now2 th2).isUpdatingAfter = true
      ∧ (handleFileModify ck2 mk2 patterns2 true path2 content2 now2 th2).write = none
      ∧ (handleFileModify ck2 mk2 patterns2 true path2 content2 now2 th2).isUpdatingAfter = true) := by
  intro ck mk patterns path content now ck2 mk2 patterns2 path2 content2 now2 th2
  have hsub1 : (handleFileCreate ck2 mk2 patterns2 true path2 content2 now2 th2).write = none
      ∧ (handleFileCreate ck2 mk2 patterns2 true path2 content2 now2 th2).isUpdatingAfter
        = true := by
    unfold handleFileCreate
    rw [if_pos (by simp)]
    exact ⟨rfl, rfl⟩
  have hsub2 : (handleFileModify ck2 mk2 patterns2 true path2 content2 now2 th2).write = none
      ∧ (handleFileModify ck2 mk2 patterns2 true path2 content2 now2 th2).isUpdatingAfter
        = true := by
    unfold handleFileModify
    rw [if_pos (by simp)]
    exact ⟨rfl, rfl⟩
  constructor
  · intro hthrew
    refine ⟨?_, hsub1.1, hsub1.2, hsub2.1, hsub2.2⟩
    unfold handleFileCreate at hthrew ⊢
    simp only [] at hthrew ⊢
    split_ifs at hthrew ⊢ with hg he <;> first | rfl | cases hthrew
  · intro hthrew
    refine ⟨?_, hsub1.1, hsub1.2, hsub2.1, hsub2.2⟩
    unfold handleFileModify at hthrew ⊢
    simp only [] at hthrew ⊢
    split_ifs at hthrew ⊢ with hg he <;> first | rfl | cases hthrew

/-- Concrete instance of claim C10: a failing write on a fresh document
leaves the guard flag set, and a later event performs no write. -/
theorem claim_C10_witness :
    (handleFileCreate (S ("created")) (S ("modified")) [] false (S ("a.md")) (S ("b"))
      (S ("X")) true).threw = true
    ∧ (handleFileCreate (S ("created")) (S ("modified")) [] false (S ("a.md")) (S ("b"))
      (S ("X")) true).isUpdatingAfter = true
    ∧ (handleFileCreate (S ("c")) (S ("m")) [] true (S ("z.md")) (S ("q")) (S ("Y"))
      false).write = none :=
  ⟨by decide,
   ((claim_C10 (S ("created")) (S ("modified")) [] (S ("a.md")) (S ("b")) (S ("X"))
     (S ("c")) (S ("m")) [] (S ("z.md")) (S ("q")) (S ("Y")) false).1 (by decide)).1,
   ((claim_C10 (S ("created")) (S ("modified")) [] (S ("a.md")) (S ("b")) (S ("X"))
     (S ("c")) (S ("m")) [] (S ("z.md")) (S ("q")) (S ("Y")) false).1 (by decide)).2.1⟩

end AutoTimestamp
